import Mathlib

/- Verification of the photo-collection engine of collectphotos.py
   (sbancal/PhotosCollector).

   Shallow embedding conventions:
   - strings and file-system paths are lists of characters (abbrev Str);
   - file contents are abstracted to natural numbers;
   - the SHA-256 digest is an arbitrary function from contents to digests,
     passed as the parameter hash to every definition that hashes;
   - the EXIF date extractor (exifread) is the external collaborator
     exifOf, a function from a file's content to the optional text of its
     EXIF DateTimeOriginal tag;
   - the file system is an association list from paths to contents; the
     destination files and the source files live in the same list, exactly
     as they share one real file system;
   - fallible operations return Except Err; an exception caught by the
     per-file handler of browse_sources is an Except.error value;
   - the recursion of operate_file is driven by explicit fuel; the
     development proves the fuel used by process_file is never exhausted. -/

abbrev Str := List Char

/-- Decimal digits of a natural number, most significant first, with
structural fuel so that the kernel can evaluate it.  This is the decimal
rendering used by Python string interpolation. -/
def toDecAux : Nat → Nat → Str
  | 0, _ => []
  | fuel + 1, n =>
    if n < 10 then [Nat.digitChar n]
    else toDecAux fuel (n / 10) ++ [Nat.digitChar (n % 10)]

/-- Decimal rendering of a natural number. -/
def toDec (n : Nat) : Str := toDecAux (n + 1) n

/-- Value of a decimal digit string (left inverse of toDec). -/
def evalDec (s : Str) : Nat := s.foldl (fun a c => a * 10 + (c.toNat - 48)) 0

/-- Left zero-padding to a given width: Python format spec 0w. -/
def pad (w : Nat) (s : Str) : Str := List.replicate (w - s.length) '0' ++ s

/-- Does the second list start with the first one? -/
def startsW : Str → Str → Bool
  | [], _ => true
  | _ :: _, [] => false
  | p :: ps, c :: cs => if p = c then startsW ps cs else false

/-- ASCII lowercasing of a string (the effect of re.IGNORECASE and of
str.lower on the characters this program compares). -/
def lowerStr (s : Str) : Str := s.map Char.toLower

/-- Is the path p a proper descendant of the directory d? -/
def underDir (d p : Str) : Bool := startsW (d ++ ['/']) p

/-- Python str.split with a single-character separator: returns the list
of (possibly empty) chunks between occurrences of the separator. -/
def splitChar (sep : Char) : Str → List Str
  | [] => [[]]
  | c :: rest =>
    match splitChar sep rest with
    | [] => [[]]
    | s :: ss => if c = sep then [] :: s :: ss else (c :: s) :: ss

/-- The part of a path after its last slash (Python Path.name). -/
def basename (p : Str) : Str :=
  p.foldl (fun acc c => if c = '/' then [] else acc ++ [c]) []

/-- File-transfer operator: cp, mv or ln. -/
inductive Op where
  | cp
  | mv
  | ln
deriving DecidableEq

/-- Errors that a per-file processing step can raise. -/
inductive Err where
  | readErr (p : Str)
  | outOfFuel
deriving DecidableEq

/-- Outcome of placing one file. -/
inductive Outc where
  | transferred (p : Str)
  | dup
deriving DecidableEq

/-- The run-level counters of browse_sources. -/
structure Counts where
  total_processed : Nat
  no_date_collected : Nat
  total_collected : Nat
  duplicate : Nat
deriving DecidableEq

def Counts.addDup (c : Counts) : Counts :=
  Counts.mk c.total_processed c.no_date_collected c.total_collected (c.duplicate + 1)

def Counts.addCollected (c : Counts) (noDate : Bool) : Counts :=
  if noDate then
    Counts.mk c.total_processed (c.no_date_collected + 1) c.total_collected c.duplicate
  else
    Counts.mk c.total_processed c.no_date_collected (c.total_collected + 1) c.duplicate

def Counts.addProcessed (c : Counts) : Counts :=
  Counts.mk (c.total_processed + 1) c.no_date_collected c.total_collected c.duplicate

/-- Association-list lookup in the file system (first match wins). -/
def fsLookup : List (Str × Nat) → Str → Option Nat
  | [], _ => none
  | e :: rest, p => if e.1 = p then some e.2 else fsLookup rest p

/-- File deletion (os.unlink / the removal half of a move). -/
def fsErase : List (Str × Nat) → Str → List (Str × Nat)
  | [], _ => []
  | e :: rest, p => if e.1 = p then fsErase rest p else e :: fsErase rest p

/-- The files lying below a directory (Path.rglob restricted to regular
files, in file-system order). -/
def filesUnder (fs : List (Str × Nat)) (d : Str) : List (Str × Nat) :=
  fs.filter (fun e => underDir d e.1)

def keysOf (fs : List (Str × Nat)) : List Str := fs.map Prod.fst

/-- CheckSumManager: the shared content-fingerprint index. -/
structure CheckSumManager where
  checksums : List (Str × Nat)
deriving DecidableEq

def CheckSumManager.find (csm : CheckSumManager) (p : Str) : Option Nat :=
  fsLookup csm.checksums p

/-- CheckSumManager.process: hash the file at p (unless already indexed)
and record the digest under the key p. -/
def CheckSumManager.process (hash : Nat → Nat) (fs : List (Str × Nat))
    (csm : CheckSumManager) (p : Str) : Except Err CheckSumManager :=
  match csm.find p with
  | some _ => .ok csm
  | none =>
    match fsLookup fs p with
    | some c => .ok (CheckSumManager.mk ((p, hash c) :: csm.checksums))
    | none => .error (.readErr p)

/-- How many indexed entries carry the digest d. -/
def countDigest : List (Str × Nat) → Nat → Nat
  | [], _ => 0
  | e :: rest, d => (if e.2 = d then 1 else 0) + countDigest rest d

/-- CheckSumManager.is_unique: process p, then report whether its digest
occurs exactly once in the whole index. -/
def CheckSumManager.is_unique (hash : Nat → Nat) (fs : List (Str × Nat))
    (csm : CheckSumManager) (p : Str) : Except Err (Bool × CheckSumManager) :=
  match CheckSumManager.process hash fs csm p with
  | .error e => .error e
  | .ok csm1 =>
    match csm1.find p with
    | some d => .ok (decide (countDigest csm1.checksums d = 1), csm1)
    | none => .error (.readErr p)

/-- A source file as discovered by the traversal: its path and its
extension (Python Path.suffix, with the leading dot). -/
structure SrcFile where
  path : Str
  ext : Str
deriving DecidableEq

/-- The whole mutable state of a run. -/
structure St where
  fs : List (Str × Nat)
  csm : CheckSumManager
  lastNb : Nat
  counts : Counts
  errs : List (Str × Err)
deriving DecidableEq

def EXTENSIONS : List Str :=
  [".jpg".data, ".jpeg".data, ".cr2".data, ".nef".data, ".dng".data]

def NO_EXIF_FOLDER : Str := "no_exif".data

def NO_EXIF_FILE_NB_DIGITS : Nat := 7

/-- The undated folder: dest/no_exif. -/
def noExifDir (dest : Str) : Str := dest ++ '/' :: NO_EXIF_FOLDER

/-- Embedding of re.match applied to the seed pattern of NoExifFolder:
seven decimal digits, a dot, then jpg or jpeg case-insensitively, matched
matching only a leading segment of the name (re.match anchors at the start only). Returns the
numeric value of the digit group on success. -/
def seedMatch (name : Str) : Option Nat :=
  let ds := name.take NO_EXIF_FILE_NB_DIGITS
  let rest := name.drop NO_EXIF_FILE_NB_DIGITS
  if (ds.length == NO_EXIF_FILE_NB_DIGITS && ds.all Char.isDigit
      && (startsW ('.' :: "jpg".data) (lowerStr rest)
          || startsW ('.' :: "jpeg".data) (lowerStr rest))) then
    some (evalDec ds)
  else none

/-- Modelled from the spec: the anchored variant of the seed pattern, as
the specification writes it, with both ends anchored, so that no trailing
characters are permitted after the extension. -/
def specAnchoredMatch (name : Str) : Option Nat :=
  let ds := name.take NO_EXIF_FILE_NB_DIGITS
  let rest := name.drop NO_EXIF_FILE_NB_DIGITS
  if (ds.length == NO_EXIF_FILE_NB_DIGITS && ds.all Char.isDigit
      && (lowerStr rest == '.' :: "jpg".data
          || lowerStr rest == '.' :: "jpeg".data)) then
    some (evalDec ds)
  else none

/-- Largest number matched by f over a list of names (0 if none match). -/
def maxMatched (f : Str → Option Nat) : List Str → Nat
  | [] => 0
  | n :: rest =>
    max (match f n with | some k => k | none => 0) (maxMatched f rest)

/-- The scanning loop of NoExifFolder.__init__: fold the seed counter over
the tree and fingerprint every file encountered. -/
def noExifGo (hash : Nat → Nat) (fs : List (Str × Nat)) :
    List (Str × Nat) → Nat → CheckSumManager → Except Err (Nat × CheckSumManager)
  | [], nb, csm => .ok (nb, csm)
  | e :: rest, nb, csm =>
    let nb' := match seedMatch (basename e.1) with
      | some k => max nb k
      | none => nb
    match CheckSumManager.process hash fs csm e.1 with
    | .ok csm' => noExifGo hash fs rest nb' csm'
    | .error er => .error er

/-- NoExifFolder.__init__: scan the undated tree, seeding the counter and
fingerprinting every file of the tree. -/
def noExifInit (hash : Nat → Nat) (fs : List (Str × Nat)) (dest : Str)
    (csm : CheckSumManager) : Except Err (Nat × CheckSumManager) :=
  noExifGo hash fs (filesUnder fs (noExifDir dest)) 0 csm

/-- NoExifFolder.get_next_file_name: increment the counter, render it
zero-padded to seven digits. -/
def get_next_file_name (nb : Nat) : Nat × Str :=
  (nb + 1, pad NO_EXIF_FILE_NB_DIGITS (toDec (nb + 1)))

/-- The collision suffix of operate_file: empty at index 0, otherwise an
underscore and the decimal index. -/
def strIndex (n : Nat) : Str := if n = 0 then [] else '_' :: toDec n

/-- The candidate destination path probed at a given index. -/
def candPath (destBase suffix : Str) (n : Nat) : Str :=
  destBase ++ strIndex n ++ suffix

/-- operate_file: place src at the first free candidate path, declaring a
duplicate when a collision occurs and the source is not unique. -/
def operate_file (hash : Nat → Nat) (op : Op) (rm : Bool)
    (srcPath destBase suffix : Str) (noDate : Bool) :
    Nat → Nat → St → Except Err (St × Outc)
  | 0, _, _ => .error .outOfFuel
  | fuel + 1, index, st =>
    let full_dest := candPath destBase suffix index
    match fsLookup st.fs full_dest with
    | some _ =>
      match CheckSumManager.process hash st.fs st.csm full_dest with
      | .error e => .error e
      | .ok csm1 =>
        match CheckSumManager.is_unique hash st.fs csm1 srcPath with
        | .error e => .error e
        | .ok (u, csm2) =>
          if u then
            operate_file hash op rm srcPath destBase suffix noDate fuel (index + 1)
              (St.mk st.fs csm2 st.lastNb st.counts st.errs)
          else
            .ok (St.mk (if rm then fsErase st.fs srcPath else st.fs) csm2
                   st.lastNb st.counts.addDup st.errs, .dup)
    | none =>
      match fsLookup st.fs srcPath with
      | none => .error (.readErr srcPath)
      | some c =>
        let fs' := match op with
          | .cp => (full_dest, c) :: st.fs
          | .mv => (full_dest, c) :: fsErase st.fs srcPath
          | .ln => (full_dest, c) :: st.fs
        .ok (St.mk fs' st.csm st.lastNb (st.counts.addCollected noDate) st.errs,
             .transferred full_dest)

/-- The date-derived placement of process_file: split the tag text on the
space and the colons, build the directory dest/yyyy-mm and the base name
yyyy-mm-dd_hh-mi-ss, rejecting the all-zero rendering.  Any shape that
would raise ValueError in the Python unpacking yields none. -/
def parseDatePath (destFolder : Str) (tag : Str) : Option (Str × Str) :=
  match splitChar ' ' tag with
  | [ymd, hms] =>
    (match splitChar ':' ymd, splitChar ':' hms with
     | [yyyy, mm, dd], [hh, mi, ss] =>
       let dir := destFolder ++ '/' :: (yyyy ++ '-' :: mm)
       let filename :=
         yyyy ++ '-' :: mm ++ '-' :: dd ++ '_' :: hh ++ '-' :: mi ++ '-' :: ss
       if filename = "0000-00-00_00-00-00".data then none
       else some (dir, filename)
     | _, _ => none)
  | _ => none

/-- process_file: read the file, try the EXIF date route, fall back to the
undated route on a missing or unparsable date, and hand over to
operate_file. -/
def process_file (hash : Nat → Nat) (exifOf : Nat → Option Str) (op : Op)
    (rm : Bool) (destFolder : Str) (f : SrcFile) (st : St) :
    Except Err (St × Outc) :=
  match fsLookup st.fs f.path with
  | none => .error (.readErr f.path)
  | some c =>
    match (exifOf c).bind (parseDatePath destFolder) with
    | some dirAndName =>
      operate_file hash op rm f.path (dirAndName.1 ++ '/' :: dirAndName.2) f.ext
        false (st.fs.length + 1) 0 st
    | none =>
      match CheckSumManager.is_unique hash st.fs st.csm f.path with
      | .error e => .error e
      | .ok (u, csm1) =>
        if u then
          let nxt := get_next_file_name st.lastNb
          operate_file hash op rm f.path
            (noExifDir destFolder ++ '/' :: nxt.2) f.ext true
            (st.fs.length + 1) 0
            (St.mk st.fs csm1 nxt.1 st.counts st.errs)
        else
          .ok (St.mk (if rm then fsErase st.fs f.path else st.fs) csm1
                 st.lastNb st.counts.addDup st.errs, .dup)

/-- The extension filter of browse_sources. -/
def eligible (f : SrcFile) : Bool := decide (lowerStr f.ext ∈ EXTENSIONS)

/-- The traversal loop of browse_sources: each eligible file is processed,
a per-file error is recorded and the loop continues. -/
def browseList (hash : Nat → Nat) (exifOf : Nat → Option Str) (op : Op)
    (rm : Bool) (destFolder : Str) : List SrcFile → St → St
  | [], st => st
  | f :: rest, st =>
    if eligible f then
      let st1 :=
        match process_file hash exifOf op rm destFolder f st with
        | .ok res => res.1
        | .error e =>
          St.mk st.fs st.csm st.lastNb st.counts (st.errs ++ [(f.path, e)])
      browseList hash exifOf op rm destFolder rest
        (St.mk st1.fs st1.csm st1.lastNb st1.counts.addProcessed st1.errs)
    else browseList hash exifOf op rm destFolder rest st

/-- browse_sources: build the shared tools (checksum index seeded from the
undated tree, counters at zero) and run the traversal. -/
def browse_sources (hash : Nat → Nat) (exifOf : Nat → Option Str) (op : Op)
    (rm : Bool) (destFolder : Str) (files : List SrcFile)
    (fs0 : List (Str × Nat)) : Except Err St :=
  match noExifInit hash fs0 destFolder (CheckSumManager.mk []) with
  | .error e => .error e
  | .ok seeded =>
    .ok (browseList hash exifOf op rm destFolder files
          (St.mk fs0 seeded.2 seeded.1 (Counts.mk 0 0 0 0) []))

/-- The digest of a source file, read through the file system. -/
def srcDigest (hash : Nat → Nat) (fs : List (Str × Nat)) (f : SrcFile) :
    Option Nat := (fsLookup fs f.path).map hash

/-- Modelled from the spec: the standard EXIF rendering of a capture date,
colon-separated and zero-padded, as written by conforming cameras. -/
def exifTagOf (y m d h mi s : Nat) : Str :=
  pad 4 (toDec y) ++ ':' :: pad 2 (toDec m) ++ ':' :: pad 2 (toDec d)
    ++ ' ' :: pad 2 (toDec h) ++ ':' :: pad 2 (toDec mi) ++ ':' :: pad 2 (toDec s)

/-- One iteration of the traversal loop: process the file, record a
possible error, and count the file as processed. -/
def browseStep (hash : Nat → Nat) (exifOf : Nat → Option Str) (op : Op)
    (rm : Bool) (destFolder : Str) (f : SrcFile) (st : St) : St :=
  match process_file hash exifOf op rm destFolder f st with
  | .ok res =>
    St.mk res.1.fs res.1.csm res.1.lastNb res.1.counts.addProcessed res.1.errs
  | .error e =>
    St.mk st.fs st.csm st.lastNb st.counts.addProcessed (st.errs ++ [(f.path, e)])

/-- The key paths of the index are pairwise distinct. -/
def NodupKeys (l : List (Str × Nat)) : Prop := (l.map Prod.fst).Nodup

/-- Every index entry records the digest of the content currently stored
at its path. -/
def CsmF (hash : Nat → Nat) (fs : List (Str × Nat)) (csm : CheckSumManager) : Prop :=
  ∀ e ∈ csm.checksums, ∃ c, fsLookup fs e.1 = some c ∧ e.2 = hash c

/-- Pointwise extension of file systems: every stored file keeps its
content. -/
def FsLe (fs fs' : List (Str × Nat)) : Prop :=
  ∀ p c, fsLookup fs p = some c → fsLookup fs' p = some c

/-- Entry-wise containment of checksum indexes. -/
def CsmLe (a b : CheckSumManager) : Prop := ∀ e ∈ a.checksums, e ∈ b.checksums

/-- The digest of the file currently stored at p. -/
def digestAt (hash : Nat → Nat) (fs : List (Str × Nat)) (p : Str) : Option Nat :=
  (fsLookup fs p).map hash

/-- The base path (directory and date-derived file name, without suffix
or extension) that process_file would hand to operate_file for a file of
content c, when the dated route applies. -/
def datedBase (exifOf : Nat → Option Str) (destFolder : Str) (c : Nat) : Option Str :=
  ((exifOf c).bind (parseDatePath destFolder)).map (fun dn => dn.1 ++ '/' :: dn.2)

/-- A source path that lies outside the destination tree. -/
def srcOutside (destFolder : Str) (f : SrcFile) : Prop :=
  startsW (destFolder ++ ['/']) f.path = false

/-- Processing f (of content c) over the file system FS is certain to
index f's own path: the undated route always queries is_unique on it, and
the dated route does so as soon as candidate 0 is occupied. -/
def SelfIdx (exifOf : Nat → Option Str) (destFolder : Str)
    (FS : List (Str × Nat)) (f : SrcFile) (c : Nat) : Prop :=
  match datedBase exifOf destFolder c with
  | none => True
  | some b => (fsLookup FS (candPath b f.ext 0)).isSome = true

/-- A reason why a rerun over the file system FS must classify the file f
(of content c) as a duplicate: its digest is carried by a file of the
undated tree, or by an earlier eligible source file, or by an occupied
candidate on its own dated probing chain. -/
def DupWit (hash : Nat → Nat) (exifOf : Nat → Option Str) (destFolder : Str)
    (FS : List (Str × Nat)) (earlier : List SrcFile) (f : SrcFile) (c : Nat) : Prop :=
  (∃ p cp, underDir (noExifDir destFolder) p = true ∧ fsLookup FS p = some cp ∧
    hash cp = hash c) ∨
  (∃ g ∈ earlier, eligible g = true ∧ ∃ cg, fsLookup FS g.path = some cg ∧
    hash cg = hash c) ∨
  (∃ b i, datedBase exifOf destFolder c = some b ∧
    (∀ i', i' ≤ i → (fsLookup FS (candPath b f.ext i')).isSome = true) ∧
    (∃ ci, fsLookup FS (candPath b f.ext i) = some ci ∧ hash ci = hash c))

/-- Classification of a checksum-index entry during the first run: it
belongs to the undated tree, or records the digest of an earlier eligible
source (or of one of its placed copies), or is a pre-existing dated-area
destination file. -/
def EntryClass (hash : Nat → Nat) (destFolder : Str)
    (fs0 FS : List (Str × Nat)) (P : List SrcFile) (q : Str) (dq : Nat) : Prop :=
  underDir (noExifDir destFolder) q = true ∨
  (∃ g ∈ P, eligible g = true ∧ ∃ cg, fsLookup FS g.path = some cg ∧ dq = hash cg) ∨
  (∃ cq, fsLookup fs0 q = some cq ∧ dq = hash cq ∧
    startsW (destFolder ++ ['/']) q = true ∧
    underDir (noExifDir destFolder) q = false)

/-- Classification of files during the first run: every file either was
present initially with the same content, or is a copy of an earlier
eligible source. -/
def FileClass (fs0 FS : List (Str × Nat)) (P : List SrcFile) : Prop :=
  ∀ p cp, fsLookup FS p = some cp → fsLookup fs0 p = some cp ∨
    (∃ g ∈ P, eligible g = true ∧ ∃ cg, fsLookup FS g.path = some cg ∧ cp = cg)

/- ------------------------------------------------------------------ -/
/- Basic lemmas about decimal rendering and padding                    -/
/- ------------------------------------------------------------------ -/

theorem digitChar_toNat {n : Nat} (h : n < 10) : (Nat.digitChar n).toNat = n + 48 := by
  interval_cases n <;> decide

theorem evalDec_append_one (xs : Str) (c : Char) :
    evalDec (xs ++ [c]) = evalDec xs * 10 + (c.toNat - 48) := by
  simp [evalDec, List.foldl_append]

theorem evalDec_toDecAux : ∀ fuel n, n < fuel → evalDec (toDecAux fuel n) = n := by
  intro fuel
  induction fuel with
  | zero => intro n h; omega
  | succ fuel ih =>
    intro n h
    by_cases h10 : n < 10
    · simp [toDecAux, h10, evalDec, digitChar_toNat h10]
    · have hdiv : n / 10 < fuel := by
        have : n / 10 < n := Nat.div_lt_self (by omega) (by omega)
        omega
      have hmod : n % 10 < 10 := Nat.mod_lt _ (by omega)
      simp only [toDecAux, if_neg h10]
      rw [evalDec_append_one, ih _ hdiv, digitChar_toNat hmod]
      omega

theorem evalDec_toDec (n : Nat) : evalDec (toDec n) = n :=
  evalDec_toDecAux (n + 1) n (Nat.lt_succ_self n)

theorem toDec_inj {a b : Nat} (h : toDec a = toDec b) : a = b := by
  have := evalDec_toDec a
  rw [h, evalDec_toDec] at this
  omega

theorem evalDec_replicate_zero (k : Nat) :
    List.foldl (fun a c => a * 10 + (c.toNat - 48)) 0 (List.replicate k '0') = 0 := by
  induction k with
  | zero => rfl
  | succ k ih => simpa [List.replicate_succ] using ih

theorem evalDec_pad (w : Nat) (s : Str) : evalDec (pad w s) = evalDec s := by
  simp [pad, evalDec, List.foldl_append, evalDec_replicate_zero]

theorem pad_toDec_inj {w a b : Nat} (h : pad w (toDec a) = pad w (toDec b)) : a = b := by
  have ha := evalDec_pad w (toDec a)
  rw [h, evalDec_pad] at ha
  rw [evalDec_toDec, evalDec_toDec] at ha
  omega

theorem toDec_ne_nil (n : Nat) : toDec n ≠ [] := by
  unfold toDec toDecAux
  by_cases h10 : n < 10 <;> simp [h10]

theorem strIndex_inj {a b : Nat} (h : strIndex a = strIndex b) : a = b := by
  unfold strIndex at h
  by_cases ha : a = 0 <;> by_cases hb : b = 0 <;> simp [ha, hb] at h ⊢
  · exact toDec_inj h

theorem candPath_inj {base suffix : Str} {a b : Nat}
    (h : candPath base suffix a = candPath base suffix b) : a = b := by
  unfold candPath at h
  exact strIndex_inj (List.append_cancel_left (List.append_cancel_right h))

/- ------------------------------------------------------------------ -/
/- Basic lemmas about the file-system association list                 -/
/- ------------------------------------------------------------------ -/

theorem fsLookup_mem {fs : List (Str × Nat)} {p : Str} {c : Nat}
    (h : fsLookup fs p = some c) : (p, c) ∈ fs := by
  induction fs with
  | nil => simp [fsLookup] at h
  | cons e rest ih =>
    by_cases he : e.1 = p
    · simp only [fsLookup, if_pos he, Option.some.injEq] at h
      have : e = (p, c) := by
        cases e
        simp_all
      simp [this]
    · simp only [fsLookup, if_neg he] at h
      exact List.mem_cons_of_mem _ (ih h)

theorem fsLookup_eq_none_iff {fs : List (Str × Nat)} {p : Str} :
    fsLookup fs p = none ↔ p ∉ keysOf fs := by
  induction fs with
  | nil => simp [fsLookup, keysOf]
  | cons e rest ih =>
    by_cases he : e.1 = p
    · simp [fsLookup, he, keysOf]
    · simp only [fsLookup, if_neg he, keysOf, List.map_cons, List.mem_cons] at ih ⊢
      rw [ih]
      constructor
      · intro hn hc
        rcases hc with hc | hc
        · exact he hc.symm
        · exact hn hc
      · intro hn hc
        exact hn (Or.inr hc)

theorem fsLookup_cons_of_ne {fs : List (Str × Nat)} {q p : Str} {c : Nat}
    (h : q ≠ p) : fsLookup ((q, c) :: fs) p = fsLookup fs p := by
  simp [fsLookup, h]

theorem fsLookup_mono_insert {fs : List (Str × Nat)} {q : Str} {cq : Nat}
    (hq : fsLookup fs q = none) {p : Str} {c : Nat}
    (h : fsLookup fs p = some c) : fsLookup ((q, cq) :: fs) p = some c := by
  by_cases he : q = p
  · subst he
    rw [hq] at h
    cases h
  · rw [fsLookup_cons_of_ne he]
    exact h

/- ------------------------------------------------------------------ -/
/- Lemmas about CheckSumManager                                        -/
/- ------------------------------------------------------------------ -/

theorem process_cases {hash : Nat → Nat} {fs : List (Str × Nat)}
    {csm csm' : CheckSumManager} {p : Str}
    (h : CheckSumManager.process hash fs csm p = .ok csm') :
    (∃ d, csm.find p = some d ∧ csm' = csm) ∨
    (csm.find p = none ∧ ∃ c, fsLookup fs p = some c ∧
      csm' = CheckSumManager.mk ((p, hash c) :: csm.checksums)) := by
  unfold CheckSumManager.process at h
  cases hf : csm.find p with
  | some d =>
    rw [hf] at h
    exact Or.inl ⟨d, rfl, (by cases h; rfl)⟩
  | none =>
    rw [hf] at h
    cases hl : fsLookup fs p with
    | some c =>
      rw [hl] at h
      cases h
      exact Or.inr ⟨rfl, c, rfl, rfl⟩
    | none => rw [hl] at h; cases h

theorem process_ok_of_mem {hash : Nat → Nat} {fs : List (Str × Nat)}
    {csm : CheckSumManager} {p : Str} {c : Nat}
    (h : fsLookup fs p = some c) :
    ∃ csm', CheckSumManager.process hash fs csm p = .ok csm' := by
  unfold CheckSumManager.process
  cases hf : csm.find p with
  | some d => exact ⟨csm, rfl⟩
  | none => rw [h]; exact ⟨_, rfl⟩

theorem process_superset {hash : Nat → Nat} {fs : List (Str × Nat)}
    {csm csm' : CheckSumManager} {p : Str}
    (h : CheckSumManager.process hash fs csm p = .ok csm') : CsmLe csm csm' := by
  rcases process_cases h with ⟨d, _, rfl⟩ | ⟨_, c, _, rfl⟩
  · exact fun e he => he
  · exact fun e he => List.mem_cons_of_mem _ he

theorem process_find_self {hash : Nat → Nat} {fs : List (Str × Nat)}
    {csm csm' : CheckSumManager} {p : Str}
    (h : CheckSumManager.process hash fs csm p = .ok csm') :
    ∃ d, csm'.find p = some d := by
  rcases process_cases h with ⟨d, hd, rfl⟩ | ⟨_, c, _, rfl⟩
  · exact ⟨d, hd⟩
  · exact ⟨hash c, by simp [CheckSumManager.find, fsLookup]⟩

theorem process_nodup {hash : Nat → Nat} {fs : List (Str × Nat)}
    {csm csm' : CheckSumManager} {p : Str}
    (h : CheckSumManager.process hash fs csm p = .ok csm')
    (hn : NodupKeys csm.checksums) : NodupKeys csm'.checksums := by
  rcases process_cases h with ⟨d, _, rfl⟩ | ⟨hnone, c, _, rfl⟩
  · exact hn
  · unfold NodupKeys at hn ⊢
    simp only [List.map_cons, List.nodup_cons]
    refine ⟨?_, hn⟩
    intro hp
    rcases List.mem_map.mp hp with ⟨e, he, hep⟩
    have : fsLookup csm.checksums p = none := hnone
    rw [fsLookup_eq_none_iff] at this
    exact this (by simpa [keysOf, hep] using List.mem_map_of_mem Prod.fst he)

theorem process_csmF {hash : Nat → Nat} {fs : List (Str × Nat)}
    {csm csm' : CheckSumManager} {p : Str}
    (h : CheckSumManager.process hash fs csm p = .ok csm')
    (hf : CsmF hash fs csm) : CsmF hash fs csm' := by
  rcases process_cases h with ⟨d, _, rfl⟩ | ⟨_, c, hc, rfl⟩
  · exact hf
  · intro e he
    rcases List.mem_cons.mp he with rfl | he
    · exact ⟨c, hc, rfl⟩
    · exact hf e he

theorem csmF_of_fsLe {hash : Nat → Nat} {fs fs' : List (Str × Nat)}
    {csm : CheckSumManager} (hle : FsLe fs fs') (hf : CsmF hash fs csm) :
    CsmF hash fs' csm := by
  intro e he
  rcases hf e he with ⟨c, hc, hd⟩
  exact ⟨c, hle _ _ hc, hd⟩

theorem find_digest_of_csmF {hash : Nat → Nat} {fs : List (Str × Nat)}
    {csm : CheckSumManager} {p : Str} {d c : Nat}
    (hf : CsmF hash fs csm) (hfind : csm.find p = some d)
    (hc : fsLookup fs p = some c) : d = hash c := by
  have hm : (p, d) ∈ csm.checksums := fsLookup_mem hfind
  rcases hf _ hm with ⟨c', hc', hd⟩
  rw [hc] at hc'
  cases hc'
  exact hd

/- countDigest -/

theorem countDigest_pos_of_mem {l : List (Str × Nat)} {q : Str} {d : Nat}
    (h : (q, d) ∈ l) : 1 ≤ countDigest l d := by
  induction l with
  | nil => cases h
  | cons e rest ih =>
    rcases List.mem_cons.mp h with rfl | h
    · simp [countDigest]
    · have := ih h
      unfold countDigest
      omega

theorem exists_mem_of_countDigest_pos {l : List (Str × Nat)} {d : Nat}
    (h : 1 ≤ countDigest l d) : ∃ q, (q, d) ∈ l := by
  induction l with
  | nil => simp [countDigest] at h
  | cons e rest ih =>
    unfold countDigest at h
    by_cases he : e.2 = d
    · exact ⟨e.1, by simp [← he]⟩
    · rw [if_neg he] at h
      simp only [Nat.zero_add] at h
      rcases ih h with ⟨q, hq⟩
      exact ⟨q, List.mem_cons_of_mem _ hq⟩

theorem countDigest_two {l : List (Str × Nat)} {p q : Str} {d : Nat}
    (hp : (p, d) ∈ l) (hq : (q, d) ∈ l) (hne : p ≠ q) :
    2 ≤ countDigest l d := by
  induction l with
  | nil => cases hp
  | cons e rest ih =>
    rcases List.mem_cons.mp hp with rfl | hp'
    · have hq' : (q, d) ∈ rest := by
        rcases List.mem_cons.mp hq with h | h
        · cases h; exact absurd rfl hne
        · exact h
      have := countDigest_pos_of_mem hq'
      simp [countDigest]
      omega
    · rcases List.mem_cons.mp hq with rfl | hq'
      · have := countDigest_pos_of_mem hp'
        simp [countDigest]
        omega
      · have := ih hp' hq'
        unfold countDigest
        omega

theorem exists_other_of_count_ge_two {l : List (Str × Nat)} {p : Str} {d : Nat}
    (h : 2 ≤ countDigest l d) (hp : (p, d) ∈ l) (hn : (l.map Prod.fst).Nodup) :
    ∃ q, q ≠ p ∧ (q, d) ∈ l := by
  induction l with
  | nil => cases hp
  | cons e rest ih =>
    simp only [List.map_cons, List.nodup_cons] at hn
    by_cases he : e.2 = d
    · simp only [countDigest, if_pos he] at h
      have hrest : 1 ≤ countDigest rest d := by omega
      rcases exists_mem_of_countDigest_pos hrest with ⟨q', hq'⟩
      by_cases hep : e.1 = p
      · refine ⟨q', ?_, List.mem_cons_of_mem _ hq'⟩
        intro hq'p
        subst hq'p
        exact hn.1 (by simpa [hep] using List.mem_map_of_mem Prod.fst hq')
      · exact ⟨e.1, hep, by simp [← he]⟩
    · simp only [countDigest, if_neg he, Nat.zero_add] at h
      have hp' : (p, d) ∈ rest := by
        rcases List.mem_cons.mp hp with rfl | h'
        · exact absurd rfl he
        · exact h'
      rcases ih h hp' hn.2 with ⟨q, hq, hqm⟩
      exact ⟨q, hq, List.mem_cons_of_mem _ hqm⟩

theorem is_unique_cases {hash : Nat → Nat} {fs : List (Str × Nat)}
    {csm csm' : CheckSumManager} {p : Str} {b : Bool}
    (h : CheckSumManager.is_unique hash fs csm p = .ok (b, csm')) :
    CheckSumManager.process hash fs csm p = .ok csm' ∧
      ∃ d, csm'.find p = some d ∧ b = decide (countDigest csm'.checksums d = 1) := by
  unfold CheckSumManager.is_unique at h
  cases hp : CheckSumManager.process hash fs csm p with
  | error e => rw [hp] at h; simp at h
  | ok csm1 =>
    rw [hp] at h
    dsimp only at h
    cases hf : csm1.find p with
    | none => rw [hf] at h; simp at h
    | some d =>
      rw [hf] at h
      dsimp only at h
      injection h with h1
      injection h1 with hb hc
      subst hc
      exact ⟨rfl, d, hf, hb.symm⟩

theorem is_unique_ok_of_mem {hash : Nat → Nat} {fs : List (Str × Nat)}
    {csm : CheckSumManager} {p : Str} {c : Nat}
    (h : fsLookup fs p = some c) :
    ∃ b csm', CheckSumManager.is_unique hash fs csm p = .ok (b, csm') := by
  rcases @process_ok_of_mem hash fs csm p c h with ⟨csm', hp⟩
  rcases process_find_self hp with ⟨d, hd⟩
  unfold CheckSumManager.is_unique
  rw [hp]
  dsimp only
  rw [hd]
  exact ⟨_, csm', rfl⟩

theorem is_unique_superset {hash : Nat → Nat} {fs : List (Str × Nat)}
    {csm csm' : CheckSumManager} {p : Str} {b : Bool}
    (h : CheckSumManager.is_unique hash fs csm p = .ok (b, csm')) :
    CsmLe csm csm' :=
  process_superset (is_unique_cases h).1

theorem is_unique_nodup {hash : Nat → Nat} {fs : List (Str × Nat)}
    {csm csm' : CheckSumManager} {p : Str} {b : Bool}
    (h : CheckSumManager.is_unique hash fs csm p = .ok (b, csm'))
    (hn : NodupKeys csm.checksums) : NodupKeys csm'.checksums :=
  process_nodup (is_unique_cases h).1 hn

theorem is_unique_csmF {hash : Nat → Nat} {fs : List (Str × Nat)}
    {csm csm' : CheckSumManager} {p : Str} {b : Bool}
    (h : CheckSumManager.is_unique hash fs csm p = .ok (b, csm'))
    (hf : CsmF hash fs csm) : CsmF hash fs csm' :=
  process_csmF (is_unique_cases h).1 hf

theorem process_additions {hash : Nat → Nat} {fs : List (Str × Nat)}
    {csm csm' : CheckSumManager} {p : Str}
    (h : CheckSumManager.process hash fs csm p = .ok csm') :
    ∀ e ∈ csm'.checksums, e ∈ csm.checksums ∨
      (e.1 = p ∧ ∃ c, fsLookup fs p = some c ∧ e.2 = hash c) := by
  rcases process_cases h with ⟨d, _, rfl⟩ | ⟨_, c, hc, rfl⟩
  · exact fun e he => Or.inl he
  · intro e he
    rcases List.mem_cons.mp he with rfl | he
    · exact Or.inr ⟨rfl, c, hc, rfl⟩
    · exact Or.inl he

theorem is_unique_additions {hash : Nat → Nat} {fs : List (Str × Nat)}
    {csm csm' : CheckSumManager} {p : Str} {b : Bool}
    (h : CheckSumManager.is_unique hash fs csm p = .ok (b, csm')) :
    ∀ e ∈ csm'.checksums, e ∈ csm.checksums ∨
      (e.1 = p ∧ ∃ c, fsLookup fs p = some c ∧ e.2 = hash c) :=
  process_additions (is_unique_cases h).1

theorem is_unique_mem_self {hash : Nat → Nat} {fs : List (Str × Nat)}
    {csm csm' : CheckSumManager} {p : Str} {b : Bool} {c : Nat}
    (h : CheckSumManager.is_unique hash fs csm p = .ok (b, csm'))
    (hf : CsmF hash fs csm) (hc : fsLookup fs p = some c) :
    (p, hash c) ∈ csm'.checksums := by
  rcases is_unique_cases h with ⟨hp, d, hd, _⟩
  have hcf : CsmF hash fs csm' := process_csmF hp hf
  have : d = hash c := find_digest_of_csmF hcf hd hc
  subst this
  exact fsLookup_mem hd

/-- If a second indexed entry carries the digest of p's content, then
is_unique reports false. -/
theorem is_unique_false_of_witness {hash : Nat → Nat} {fs : List (Str × Nat)}
    {csm csm' : CheckSumManager} {p q : Str} {b : Bool} {c : Nat}
    (h : CheckSumManager.is_unique hash fs csm p = .ok (b, csm'))
    (hf : CsmF hash fs csm) (hc : fsLookup fs p = some c)
    (hq : (q, hash c) ∈ csm.checksums) (hne : q ≠ p) : b = false := by
  rcases is_unique_cases h with ⟨hp, d, hd, hb⟩
  have hcf : CsmF hash fs csm' := process_csmF hp hf
  have hdc : d = hash c := find_digest_of_csmF hcf hd hc
  subst hdc
  have hpm : (p, hash c) ∈ csm'.checksums := fsLookup_mem hd
  have hqm : (q, hash c) ∈ csm'.checksums := process_superset hp _ hq
  have h2 : 2 ≤ countDigest csm'.checksums (hash c) :=
    countDigest_two hpm hqm (Ne.symm hne)
  rw [hb]
  simp only [decide_eq_false_iff_not]
  omega

/-- If is_unique reports false, some other indexed path carries the same
digest as p. -/
theorem is_unique_false_elim {hash : Nat → Nat} {fs : List (Str × Nat)}
    {csm csm' : CheckSumManager} {p : Str}
    (h : CheckSumManager.is_unique hash fs csm p = .ok (false, csm'))
    (hn : NodupKeys csm.checksums) :
    ∃ q d, q ≠ p ∧ (q, d) ∈ csm'.checksums ∧ csm'.find p = some d := by
  rcases is_unique_cases h with ⟨hp, d, hd, hb⟩
  have hn' : NodupKeys csm'.checksums := process_nodup hp hn
  have hpm : (p, d) ∈ csm'.checksums := fsLookup_mem hd
  have h1 : 1 ≤ countDigest csm'.checksums d := countDigest_pos_of_mem hpm
  have hne1 : ¬ countDigest csm'.checksums d = 1 := by
    intro hc
    rw [hc] at hb
    simp at hb
  have h2 : 2 ≤ countDigest csm'.checksums d := by omega
  rcases exists_other_of_count_ge_two h2 hpm hn' with ⟨q, hq, hqm⟩
  exact ⟨q, d, hq, hqm, hd⟩

theorem process_preserves_find {hash : Nat → Nat} {fs : List (Str × Nat)}
    {csm csm' : CheckSumManager} {p q : Str} {d : Nat}
    (h : CheckSumManager.process hash fs csm q = .ok csm')
    (hf : csm.find p = some d) : csm'.find p = some d := by
  rcases process_cases h with ⟨d', _, rfl⟩ | ⟨hnone, c, _, rfl⟩
  · exact hf
  · by_cases hpq : q = p
    · subst hpq
      rw [hnone] at hf
      cases hf
    · unfold CheckSumManager.find at hf ⊢
      simpa [fsLookup, hpq] using hf

theorem fsLookup_isSome_of_mem {fs : List (Str × Nat)} {p : Str} {c : Nat}
    (h : (p, c) ∈ fs) : ∃ c', fsLookup fs p = some c' := by
  induction fs with
  | nil => cases h
  | cons e rest ih =>
    by_cases he : e.1 = p
    · exact ⟨e.2, by simp [fsLookup, he]⟩
    · rcases List.mem_cons.mp h with rfl | h'
      · exact absurd rfl he
      · simpa [fsLookup, he] using ih h'

theorem mem_filesUnder {fs : List (Str × Nat)} {d : Str} {e : Str × Nat} :
    e ∈ filesUnder fs d ↔ e ∈ fs ∧ underDir d e.1 = true := by
  simp [filesUnder, List.mem_filter]

theorem noExifGo_props {hash : Nat → Nat} {fs : List (Str × Nat)} :
    ∀ {list : List (Str × Nat)} {nb : Nat} {csm : CheckSumManager}
      {nb' : Nat} {csm' : CheckSumManager},
      noExifGo hash fs list nb csm = .ok (nb', csm') →
      CsmLe csm csm' ∧
      (CsmF hash fs csm → CsmF hash fs csm') ∧
      (NodupKeys csm.checksums → NodupKeys csm'.checksums) ∧
      (∀ p dg, csm.find p = some dg → csm'.find p = some dg) ∧
      (∀ e ∈ csm'.checksums, e ∈ csm.checksums ∨
        (∃ c, fsLookup fs e.1 = some c ∧ e.2 = hash c ∧ e.1 ∈ keysOf list)) := by
  intro list
  induction list with
  | nil =>
    intro nb csm nb' csm' h
    unfold noExifGo at h
    injection h with h1
    injection h1 with h2 h3
    subst h3
    exact ⟨fun e he => he, id, id, fun p dg hp => hp, fun e he => Or.inl he⟩
  | cons x rest ih =>
    intro nb csm nb' csm' h
    unfold noExifGo at h
    cases hp : CheckSumManager.process hash fs csm x.1 with
    | error er => rw [hp] at h; cases h
    | ok csm1 =>
      rw [hp] at h
      dsimp only at h
      rcases ih h with ⟨hle, hcf, hnd, hfind, hadd⟩
      refine ⟨fun e he => hle e (process_superset hp e he),
        fun hf => hcf (process_csmF hp hf),
        fun hn => hnd (process_nodup hp hn),
        fun p dg hpd => hfind p dg (process_preserves_find hp hpd), ?_⟩
      intro e he
      rcases hadd e he with he' | ⟨c, hc, hd, hk⟩
      · rcases process_additions hp e he' with he'' | ⟨h1, c, hc, hd⟩
        · exact Or.inl he''
        · exact Or.inr ⟨c, h1 ▸ hc, hd, by simp [keysOf, h1]⟩
      · exact Or.inr ⟨c, hc, hd, by simp [keysOf]; exact Or.inr (by
          simpa [keysOf] using hk)⟩

theorem noExifGo_indexes {hash : Nat → Nat} {fs : List (Str × Nat)} :
    ∀ {list : List (Str × Nat)} {nb : Nat} {csm : CheckSumManager}
      {nb' : Nat} {csm' : CheckSumManager},
      noExifGo hash fs list nb csm = .ok (nb', csm') →
      CsmF hash fs csm →
      ∀ e ∈ list, ∃ c, fsLookup fs e.1 = some c ∧ csm'.find e.1 = some (hash c) := by
  intro list
  induction list with
  | nil => intro nb csm nb' csm' _ _ e he; cases he
  | cons x rest ih =>
    intro nb csm nb' csm' h hcf e he
    unfold noExifGo at h
    cases hp : CheckSumManager.process hash fs csm x.1 with
    | error er => rw [hp] at h; cases h
    | ok csm1 =>
      rw [hp] at h
      dsimp only at h
      have hcf1 : CsmF hash fs csm1 := process_csmF hp hcf
      rcases List.mem_cons.mp he with rfl | he'
      · rcases process_find_self hp with ⟨dg, hdg⟩
        rcases process_cases hp with ⟨d', hd', rfl⟩ | ⟨hnone, c, hc, rfl⟩
        · rcases hcf _ (fsLookup_mem hd') with ⟨c, hc, hdc⟩
          refine ⟨c, hc, ?_⟩
          have := (noExifGo_props h).2.2.2.1 _ _ hd'
          rw [this]
          exact congrArg some hdc
        · refine ⟨c, hc, ?_⟩
          have hdg' : (CheckSumManager.mk ((e.1, hash c) :: csm.checksums)).find e.1
              = some (hash c) := by simp [CheckSumManager.find, fsLookup]
          exact (noExifGo_props h).2.2.2.1 _ _ hdg'
      · exact ih h hcf1 e he'

theorem noExifInit_ok_elim {hash : Nat → Nat} {fs : List (Str × Nat)}
    {dest : Str} {csm0 : CheckSumManager} {nb : Nat} {csm' : CheckSumManager}
    (h : noExifInit hash fs dest csm0 = .ok (nb, csm')) :
    noExifGo hash fs (filesUnder fs (noExifDir dest)) 0 csm0 = .ok (nb, csm') := h

/-- Claim C10: the startup scan of the undated tree fingerprints and
indexes every regular file lying under it, regardless of whether its name
matches the seven-digit jpg pattern, so that later uniqueness checks see
every pre-existing undated file as already-known content. -/
theorem claim_C10 {hash : Nat → Nat} {fs : List (Str × Nat)} {dest : Str}
    {csm0 : CheckSumManager} {nb : Nat} {csm' : CheckSumManager}
    (h : noExifInit hash fs dest csm0 = .ok (nb, csm'))
    (hcf : CsmF hash fs csm0) :
    ∀ e ∈ filesUnder fs (noExifDir dest),
      ∃ c, fsLookup fs e.1 = some c ∧ csm'.find e.1 = some (hash c) :=
  noExifGo_indexes (noExifInit_ok_elim h) hcf

/-- Witness for claim C10: a tree holding a seven-digit jpg and a raw file
whose name does not match the pattern; both are indexed by the scan. -/
theorem claim_C10_witness :
    (noExifInit (fun c => c)
        [("d/no_exif/0000003.jpg".data, 7), ("d/no_exif/raw1.cr2".data, 9)]
        "d".data (CheckSumManager.mk []) =
      .ok (3, CheckSumManager.mk
        [("d/no_exif/raw1.cr2".data, 9), ("d/no_exif/0000003.jpg".data, 7)])) ∧
    (∀ e ∈ filesUnder
        [("d/no_exif/0000003.jpg".data, 7), ("d/no_exif/raw1.cr2".data, 9)]
        (noExifDir "d".data),
      ∃ c, fsLookup [("d/no_exif/0000003.jpg".data, 7),
          ("d/no_exif/raw1.cr2".data, 9)] e.1 = some c ∧
        (CheckSumManager.mk [("d/no_exif/raw1.cr2".data, 9),
          ("d/no_exif/0000003.jpg".data, 7)]).find e.1 = some ((fun c => c) c)) := by
  have h : noExifInit (fun c => c)
      [("d/no_exif/0000003.jpg".data, 7), ("d/no_exif/raw1.cr2".data, 9)]
      "d".data (CheckSumManager.mk []) =
      .ok (3, CheckSumManager.mk
        [("d/no_exif/raw1.cr2".data, 9), ("d/no_exif/0000003.jpg".data, 7)]) := by
    rfl
  exact ⟨h, claim_C10 h (by intro e he; cases he)⟩

/-- Claim C2: is_unique first ensures the queried path is fingerprinted
and indexed, and then returns true exactly when one single indexed path
carries its digest; it returns false precisely when some other indexed
path shares the digest, a global property of the whole index. -/
theorem claim_C2 {hash : Nat → Nat} {fs : List (Str × Nat)}
    {csm csm' : CheckSumManager} {p : Str} {b : Bool}
    (h : CheckSumManager.is_unique hash fs csm p = .ok (b, csm'))
    (hn : NodupKeys csm.checksums) :
    ∃ d, csm'.find p = some d ∧
      (b = true ↔ countDigest csm'.checksums d = 1) ∧
      (b = false ↔ ∃ q, q ≠ p ∧ (q, d) ∈ csm'.checksums) := by
  rcases is_unique_cases h with ⟨hp, d, hd, hb⟩
  have hn' : NodupKeys csm'.checksums := process_nodup hp hn
  have hpm : (p, d) ∈ csm'.checksums := fsLookup_mem hd
  refine ⟨d, hd, ?_, ?_⟩
  · rw [hb]
    simp
  · constructor
    · intro hbf
      rcases is_unique_false_elim (hbf ▸ h) hn with ⟨q, d', hq, hqm, hfind⟩
      rw [hd] at hfind
      injection hfind with hdd
      subst hdd
      exact ⟨q, hq, hqm⟩
    · rintro ⟨q, hq, hqm⟩
      have h2 : 2 ≤ countDigest csm'.checksums d :=
        countDigest_two hpm hqm (Ne.symm hq)
      rw [hb]
      simp only [decide_eq_false_iff_not]
      omega

/-- Witness for claim C2: querying a file whose content digest is already
carried by another indexed path yields false. -/
theorem claim_C2_witness :
    (CheckSumManager.is_unique (fun c => c) [((['a'] : Str), 5)]
        (CheckSumManager.mk [((['b'] : Str), 5)]) ['a'] =
      .ok (false, CheckSumManager.mk [(['a'], 5), (['b'], 5)])) ∧
    NodupKeys (CheckSumManager.mk [((['b'] : Str), 5)]).checksums ∧
    (∃ d, (CheckSumManager.mk [((['a'] : Str), 5), (['b'], 5)]).find ['a'] = some d ∧
      ((false : Bool) = true ↔
        countDigest (CheckSumManager.mk [((['a'] : Str), 5), (['b'], 5)]).checksums d = 1) ∧
      ((false : Bool) = false ↔ ∃ q, q ≠ ['a'] ∧
        (q, d) ∈ (CheckSumManager.mk [((['a'] : Str), 5), (['b'], 5)]).checksums)) := by
  have h : CheckSumManager.is_unique (fun c => c) [((['a'] : Str), 5)]
      (CheckSumManager.mk [((['b'] : Str), 5)]) ['a'] =
      .ok (false, CheckSumManager.mk [(['a'], 5), (['b'], 5)]) := by rfl
  have hn : NodupKeys (CheckSumManager.mk [((['b'] : Str), 5)]).checksums := by
    simp [NodupKeys]
  exact ⟨h, hn, claim_C2 h hn⟩

/- ------------------------------------------------------------------ -/
/- Claim C4: the fallback sequence counter                             -/
/- ------------------------------------------------------------------ -/

theorem noExifGo_seed {hash : Nat → Nat} {fs : List (Str × Nat)} :
    ∀ {list : List (Str × Nat)} {nb : Nat} {csm : CheckSumManager}
      {nb' : Nat} {csm' : CheckSumManager},
      noExifGo hash fs list nb csm = .ok (nb', csm') →
      nb' = max nb (maxMatched seedMatch (list.map (fun e => basename e.1))) := by
  intro list
  induction list with
  | nil =>
    intro nb csm nb' csm' h
    unfold noExifGo at h
    injection h with h1
    injection h1 with h2 h3
    simp [maxMatched, ← h2]
  | cons x rest ih =>
    intro nb csm nb' csm' h
    unfold noExifGo at h
    cases hp : CheckSumManager.process hash fs csm x.1 with
    | error er => rw [hp] at h; cases h
    | ok csm1 =>
      rw [hp] at h
      dsimp only at h
      have := ih h
      rw [this]
      simp only [List.map_cons, maxMatched]
      cases hm : seedMatch (basename x.1) with
      | none => dsimp only; rw [Nat.zero_max]
      | some k => dsimp only; rw [Nat.max_assoc]

/-- Claim C4 as stated is false of the code: the seed scan uses re.match,
which anchors only at the start, so a name with trailing characters after
the jpg extension still seeds the counter, while the anchored pattern of
the claim rejects it. -/
theorem claim_C4_counterexample :
    (∃ csm', noExifInit (fun c => c) [("d/no_exif/0000009.jpga".data, 5)]
        "d".data (CheckSumManager.mk []) = .ok (9, csm')) ∧
    maxMatched specAnchoredMatch
      ([("d/no_exif/0000009.jpga".data, 5)].map (fun e => basename e.1)) = 0 ∧
    (9 : Nat) ≠ 0 := by
  refine ⟨⟨CheckSumManager.mk [("d/no_exif/0000009.jpga".data, 5)], ?_⟩, by rfl, by decide⟩
  rfl

/-- Claim C4, amended: the counter is seeded to the maximum number among
files of the undated tree whose name starts with seven digits, a dot and
jpg or jpeg case-insensitively, trailing characters being permitted (0 if
none match); every allocation then increments the counter by one, renders
it zero-padded to seven digits, and distinct counter values always render
to distinct names, so no identifier is repeated within a run. -/
theorem claim_C4 {hash : Nat → Nat} {fs : List (Str × Nat)} {dest : Str}
    {csm0 : CheckSumManager} {nb : Nat} {csm' : CheckSumManager}
    (h : noExifInit hash fs dest csm0 = .ok (nb, csm')) :
    nb = maxMatched seedMatch
        ((filesUnder fs (noExifDir dest)).map (fun e => basename e.1)) ∧
    (∀ m, (get_next_file_name m).1 = m + 1) ∧
    (∀ m, (get_next_file_name m).2 = pad NO_EXIF_FILE_NB_DIGITS (toDec (m + 1))) ∧
    (∀ m1 m2 : Nat, m1 ≠ m2 →
      (get_next_file_name m1).2 ≠ (get_next_file_name m2).2) := by
  refine ⟨?_, fun m => rfl, fun m => rfl, ?_⟩
  · have := noExifGo_seed (noExifInit_ok_elim h)
    simpa using this
  · intro m1 m2 hne heq
    exact hne (Nat.succ_injective (pad_toDec_inj heq))

/-- Witness for the amended claim C4: a tree holding 0000003.jpg seeds the
counter at 3, and the next undated file then receives 0000004. -/
theorem claim_C4_witness :
    (noExifInit (fun c => c) [("d/no_exif/0000003.jpg".data, 7)] "d".data
        (CheckSumManager.mk []) =
      .ok (3, CheckSumManager.mk [("d/no_exif/0000003.jpg".data, 7)])) ∧
    ((3 : Nat) = maxMatched seedMatch
        ((filesUnder [("d/no_exif/0000003.jpg".data, 7)] (noExifDir "d".data)).map
          (fun e => basename e.1)) ∧
      (∀ m, (get_next_file_name m).1 = m + 1) ∧
      (∀ m, (get_next_file_name m).2 = pad NO_EXIF_FILE_NB_DIGITS (toDec (m + 1))) ∧
      (∀ m1 m2 : Nat, m1 ≠ m2 →
        (get_next_file_name m1).2 ≠ (get_next_file_name m2).2)) ∧
    get_next_file_name 3 = (4, "0000004".data) := by
  have h : noExifInit (fun c => c) [("d/no_exif/0000003.jpg".data, 7)] "d".data
      (CheckSumManager.mk []) =
      .ok (3, CheckSumManager.mk [("d/no_exif/0000003.jpg".data, 7)]) := by rfl
  exact ⟨h, claim_C4 h, by rfl⟩

/- ------------------------------------------------------------------ -/
/- Claim C6: the dated placement format                                -/
/- ------------------------------------------------------------------ -/

theorem splitChar_ne_nil (sep : Char) : ∀ s : Str, splitChar sep s ≠ [] := by
  intro s
  cases s with
  | nil => simp [splitChar]
  | cons c rest =>
    unfold splitChar
    cases h : splitChar sep rest with
    | nil => simp
    | cons x xs => by_cases hc : c = sep <;> simp [hc]

theorem splitChar_no_sep {sep : Char} :
    ∀ {s : Str}, (∀ c ∈ s, c ≠ sep) → splitChar sep s = [s] := by
  intro s
  induction s with
  | nil => intro _; rfl
  | cons c rest ih =>
    intro h
    have hc : c ≠ sep := h c (List.mem_cons_self c rest)
    have hrest := ih (fun x hx => h x (List.mem_cons_of_mem _ hx))
    unfold splitChar
    rw [hrest]
    simp [hc]

theorem splitChar_append_sep {sep : Char} {b : Str} :
    ∀ {a : Str}, (∀ c ∈ a, c ≠ sep) →
      splitChar sep (a ++ sep :: b) = a :: splitChar sep b := by
  intro a
  induction a with
  | nil =>
    intro _
    show splitChar sep (sep :: b) = [] :: splitChar sep b
    rw [splitChar]
    cases h : splitChar sep b with
    | nil => exact absurd h (splitChar_ne_nil sep b)
    | cons x xs => simp
  | cons c as ih =>
    intro h
    have hc : c ≠ sep := h c (List.mem_cons_self c as)
    have has := ih (fun x hx => h x (List.mem_cons_of_mem _ hx))
    show splitChar sep (c :: (as ++ sep :: b)) = (c :: as) :: splitChar sep b
    rw [splitChar, has]
    simp [hc]

theorem append_sep_inj {sep : Char} :
    ∀ {a b x y : Str}, (∀ c ∈ a, c ≠ sep) → (∀ c ∈ b, c ≠ sep) →
      a ++ sep :: x = b ++ sep :: y → a = b ∧ x = y := by
  intro a
  induction a with
  | nil =>
    intro b x y _ hb h
    cases b with
    | nil => simpa using h
    | cons c bs =>
      simp only [List.nil_append, List.cons_append, List.cons.injEq] at h
      exact absurd h.1.symm (hb c (List.mem_cons_self c bs))
  | cons c as ih =>
    intro b x y ha hb h
    cases b with
    | nil =>
      simp only [List.cons_append, List.nil_append, List.cons.injEq] at h
      exact absurd h.1 (ha c (List.mem_cons_self c as))
    | cons c' bs =>
      simp only [List.cons_append, List.cons.injEq] at h
      have has := ih (fun z hz => ha z (List.mem_cons_of_mem _ hz))
        (fun z hz => hb z (List.mem_cons_of_mem _ hz)) h.2
      exact ⟨by rw [h.1, has.1], has.2⟩

theorem mem_toDecAux_digit :
    ∀ {fuel n : Nat} {c : Char}, c ∈ toDecAux fuel n → ∃ k, k < 10 ∧ c = Nat.digitChar k := by
  intro fuel
  induction fuel with
  | zero => intro n c h; simp [toDecAux] at h
  | succ fuel ih =>
    intro n c h
    unfold toDecAux at h
    by_cases h10 : n < 10
    · rw [if_pos h10] at h
      simp at h
      exact ⟨n, h10, h⟩
    · rw [if_neg h10] at h
      rcases List.mem_append.mp h with h' | h'
      · exact ih h'
      · simp at h'
        exact ⟨n % 10, Nat.mod_lt _ (by omega), h'⟩

theorem digitChar_isDigit {k : Nat} (h : k < 10) : (Nat.digitChar k).isDigit = true := by
  interval_cases k <;> decide

theorem mem_pad_toDec_digit {w n : Nat} {c : Char}
    (h : c ∈ pad w (toDec n)) : c.isDigit = true := by
  unfold pad at h
  rcases List.mem_append.mp h with h' | h'
  · have : c = '0' := List.eq_of_mem_replicate h'
    rw [this]
    decide
  · rcases mem_toDecAux_digit h' with ⟨k, hk, rfl⟩
    exact digitChar_isDigit hk

theorem digit_ne_sep {c sep : Char} (hs : sep.isDigit = false)
    (hc : c.isDigit = true) : c ≠ sep := by
  intro he
  rw [he, hs] at hc
  cases hc

theorem pad_toDec_ne_sep {w n : Nat} {sep : Char} (hs : sep.isDigit = false) :
    ∀ c ∈ pad w (toDec n), c ≠ sep :=
  fun _ hc => digit_ne_sep hs (mem_pad_toDec_digit hc)

/-- Claim C6, amended: when the EXIF tag carries the standard zero-padded
rendering of a non-all-zero date, the planned directory is
dest/YYYY-MM and the planned base name is YYYY-MM-DD_hh-mm-ss, with the
textual fields copied from the tag (hence zero-padded exactly because the
tag is). -/
theorem claim_C6 {destFolder : Str} {y m d h mi s : Nat}
    (hnz : ¬ (y = 0 ∧ m = 0 ∧ d = 0 ∧ h = 0 ∧ mi = 0 ∧ s = 0)) :
    parseDatePath destFolder (exifTagOf y m d h mi s) =
      some (destFolder ++ '/' :: (pad 4 (toDec y) ++ '-' :: pad 2 (toDec m)),
        pad 4 (toDec y) ++ '-' :: pad 2 (toDec m) ++ '-' :: pad 2 (toDec d) ++
          '_' :: pad 2 (toDec h) ++ '-' :: pad 2 (toDec mi) ++
          '-' :: pad 2 (toDec s)) := by
  have hcolon : (':' : Char).isDigit = false := by decide
  have hspace : (' ' : Char).isDigit = false := by decide
  have hdash : ('-' : Char).isDigit = false := by decide
  have hunder : ('_' : Char).isDigit = false := by decide
  have hymd : ∀ c ∈ pad 4 (toDec y) ++ ':' :: (pad 2 (toDec m) ++ ':' :: pad 2 (toDec d)),
      c ≠ ' ' := by
    intro c hc
    rcases List.mem_append.mp hc with hc | hc
    · exact pad_toDec_ne_sep hspace c hc
    · rcases List.mem_cons.mp hc with rfl | hc
      · decide
      · rcases List.mem_append.mp hc with hc | hc
        · exact pad_toDec_ne_sep hspace c hc
        · rcases List.mem_cons.mp hc with rfl | hc
          · decide
          · exact pad_toDec_ne_sep hspace c hc
  have hhms : ∀ c ∈ pad 2 (toDec h) ++ ':' :: (pad 2 (toDec mi) ++ ':' :: pad 2 (toDec s)),
      c ≠ ' ' := by
    intro c hc
    rcases List.mem_append.mp hc with hc | hc
    · exact pad_toDec_ne_sep hspace c hc
    · rcases List.mem_cons.mp hc with rfl | hc
      · decide
      · rcases List.mem_append.mp hc with hc | hc
        · exact pad_toDec_ne_sep hspace c hc
        · rcases List.mem_cons.mp hc with rfl | hc
          · decide
          · exact pad_toDec_ne_sep hspace c hc
  have step1 : exifTagOf y m d h mi s =
      (pad 4 (toDec y) ++ ':' :: (pad 2 (toDec m) ++ ':' :: pad 2 (toDec d))) ++
        ' ' :: (pad 2 (toDec h) ++ ':' :: (pad 2 (toDec mi) ++ ':' :: pad 2 (toDec s))) := by
    simp [exifTagOf, List.append_assoc]
  have step2 : splitChar ' ' (exifTagOf y m d h mi s) =
      [pad 4 (toDec y) ++ ':' :: (pad 2 (toDec m) ++ ':' :: pad 2 (toDec d)),
       pad 2 (toDec h) ++ ':' :: (pad 2 (toDec mi) ++ ':' :: pad 2 (toDec s))] := by
    rw [step1, splitChar_append_sep hymd, splitChar_no_sep hhms]
  have step3 : splitChar ':'
      (pad 4 (toDec y) ++ ':' :: (pad 2 (toDec m) ++ ':' :: pad 2 (toDec d))) =
      [pad 4 (toDec y), pad 2 (toDec m), pad 2 (toDec d)] := by
    rw [splitChar_append_sep (pad_toDec_ne_sep hcolon),
      splitChar_append_sep (pad_toDec_ne_sep hcolon),
      splitChar_no_sep (pad_toDec_ne_sep hcolon)]
  have step4 : splitChar ':'
      (pad 2 (toDec h) ++ ':' :: (pad 2 (toDec mi) ++ ':' :: pad 2 (toDec s))) =
      [pad 2 (toDec h), pad 2 (toDec mi), pad 2 (toDec s)] := by
    rw [splitChar_append_sep (pad_toDec_ne_sep hcolon),
      splitChar_append_sep (pad_toDec_ne_sep hcolon),
      splitChar_no_sep (pad_toDec_ne_sep hcolon)]
  have hne : ¬ (pad 4 (toDec y) ++ '-' :: pad 2 (toDec m) ++ '-' :: pad 2 (toDec d) ++
      '_' :: pad 2 (toDec h) ++ '-' :: pad 2 (toDec mi) ++ '-' :: pad 2 (toDec s) =
      "0000-00-00_00-00-00".data) := by
    intro heq
    have hz : ("0000-00-00_00-00-00".data : Str) =
        pad 4 (toDec 0) ++ '-' :: (pad 2 (toDec 0) ++ '-' :: (pad 2 (toDec 0) ++
          '_' :: (pad 2 (toDec 0) ++ '-' :: (pad 2 (toDec 0) ++
          '-' :: pad 2 (toDec 0))))) := by rfl
    rw [hz] at heq
    simp only [List.append_assoc] at heq
    have h1 := append_sep_inj (pad_toDec_ne_sep hdash) (pad_toDec_ne_sep hdash) heq
    have hy0 : y = 0 := pad_toDec_inj h1.1
    have h2 := append_sep_inj (pad_toDec_ne_sep hdash) (pad_toDec_ne_sep hdash) h1.2
    have hm0 : m = 0 := pad_toDec_inj h2.1
    have h3 := append_sep_inj (pad_toDec_ne_sep hunder) (pad_toDec_ne_sep hunder) h2.2
    have hd0 : d = 0 := pad_toDec_inj h3.1
    have h4 := append_sep_inj (pad_toDec_ne_sep hdash) (pad_toDec_ne_sep hdash) h3.2
    have hh0 : h = 0 := pad_toDec_inj h4.1
    have h5 := append_sep_inj (pad_toDec_ne_sep hdash) (pad_toDec_ne_sep hdash) h4.2
    have hmi0 : mi = 0 := pad_toDec_inj h5.1
    have hs0 : s = 0 := pad_toDec_inj h5.2
    exact hnz ⟨hy0, hm0, hd0, hh0, hmi0, hs0⟩
  unfold parseDatePath
  rw [step2]
  dsimp only
  rw [step3, step4]
  dsimp only
  rw [if_neg hne]

/-- Claim C6 as stated is false of the code: the planner copies the tag
fields textually, so a parseable tag with unpadded fields yields an
unpadded directory, not the zero-padded YYYY-MM form the claim requires. -/
theorem claim_C6_counterexample :
    parseDatePath "dest".data "2023:1:5 3:4:5".data =
      some ("dest/2023-1".data, "2023-1-5_3-4-5".data) ∧
    ("dest/2023-1".data : Str) ≠ "dest/2023-01".data := by
  exact ⟨by rfl, by decide⟩

/-- Witness for the amended claim C6 at the date 2023-01-15 10:20:30. -/
theorem claim_C6_witness :
    (¬ ((2023 : Nat) = 0 ∧ (1 : Nat) = 0 ∧ (15 : Nat) = 0 ∧ (10 : Nat) = 0 ∧
        (20 : Nat) = 0 ∧ (30 : Nat) = 0)) ∧
    parseDatePath "dest".data (exifTagOf 2023 1 15 10 20 30) =
      some ("dest".data ++ '/' :: (pad 4 (toDec 2023) ++ '-' :: pad 2 (toDec 1)),
        pad 4 (toDec 2023) ++ '-' :: pad 2 (toDec 1) ++ '-' :: pad 2 (toDec 15) ++
          '_' :: pad 2 (toDec 10) ++ '-' :: pad 2 (toDec 20) ++
          '-' :: pad 2 (toDec 30)) :=
  ⟨by decide, claim_C6 (by decide)⟩

/- ------------------------------------------------------------------ -/
/- The probing loop of operate_file                                    -/
/- ------------------------------------------------------------------ -/

theorem fsErase_lookup_ne {src p : Str} (h : p ≠ src) :
    ∀ {fs : List (Str × Nat)}, fsLookup (fsErase fs src) p = fsLookup fs p := by
  intro fs
  induction fs with
  | nil => rfl
  | cons e rest ih =>
    by_cases he : e.1 = src
    · have hep : ¬ e.1 = p := by
        rw [he]
        exact fun hq => h hq.symm
      rw [fsErase, if_pos he, ih]
      show fsLookup rest p = fsLookup (e :: rest) p
      rw [fsLookup, if_neg hep]
    · rw [fsErase, if_neg he]
      show fsLookup (e :: fsErase rest src) p = fsLookup (e :: rest) p
      by_cases hep : e.1 = p
      · rw [fsLookup, if_pos hep, fsLookup, if_pos hep]
      · rw [fsLookup, if_neg hep, fsLookup, if_neg hep, ih]

theorem operate_file_succ (hash : Nat → Nat) (op : Op) (rm : Bool)
    (srcPath destBase suffix : Str) (noDate : Bool) (fuel index : Nat) (st : St) :
    operate_file hash op rm srcPath destBase suffix noDate (fuel + 1) index st =
      match fsLookup st.fs (candPath destBase suffix index) with
      | some _ =>
        match CheckSumManager.process hash st.fs st.csm (candPath destBase suffix index) with
        | .error e => .error e
        | .ok csm1 =>
          match CheckSumManager.is_unique hash st.fs csm1 srcPath with
          | .error e => .error e
          | .ok (u, csm2) =>
            if u then
              operate_file hash op rm srcPath destBase suffix noDate fuel (index + 1)
                (St.mk st.fs csm2 st.lastNb st.counts st.errs)
            else
              .ok (St.mk (if rm then fsErase st.fs srcPath else st.fs) csm2
                     st.lastNb st.counts.addDup st.errs, .dup)
      | none =>
        match fsLookup st.fs srcPath with
        | none => .error (.readErr srcPath)
        | some c =>
          .ok (St.mk (match op with
            | .cp => (candPath destBase suffix index, c) :: st.fs
            | .mv => (candPath destBase suffix index, c) :: fsErase st.fs srcPath
            | .ln => (candPath destBase suffix index, c) :: st.fs) st.csm st.lastNb
              (st.counts.addCollected noDate) st.errs,
            .transferred (candPath destBase suffix index)) := rfl

theorem operate_props {hash : Nat → Nat} {op : Op} {rm : Bool}
    {src base suffix : Str} {nd : Bool} :
    ∀ {fuel index : Nat} {st st' : St} {outc : Outc},
      operate_file hash op rm src base suffix nd fuel index st = .ok (st', outc) →
      st'.lastNb = st.lastNb ∧ st'.errs = st.errs ∧ CsmLe st.csm st'.csm ∧
      (NodupKeys st.csm.checksums → NodupKeys st'.csm.checksums) ∧
      (∀ e ∈ st'.csm.checksums, e ∈ st.csm.checksums ∨
        (∃ c', fsLookup st.fs e.1 = some c' ∧ e.2 = hash c' ∧
          (e.1 = src ∨ ∃ i, index ≤ i ∧ e.1 = candPath base suffix i))) ∧
      (∀ q, outc = .transferred q →
        ∃ k c, index ≤ k ∧ q = candPath base suffix k ∧
          (∀ i, index ≤ i → i < k →
            (fsLookup st.fs (candPath base suffix i)).isSome = true) ∧
          fsLookup st.fs q = none ∧ fsLookup st.fs src = some c ∧
          st'.fs = (q, c) :: (if op = .mv then fsErase st.fs src else st.fs) ∧
          st'.counts = st.counts.addCollected nd) ∧
      (outc = .dup →
        st'.fs = (if rm then fsErase st.fs src else st.fs) ∧
        st'.counts = st.counts.addDup ∧
        ∃ k csmPre, index ≤ k ∧
          (∀ i, index ≤ i → i ≤ k →
            (fsLookup st.fs (candPath base suffix i)).isSome = true) ∧
          CheckSumManager.is_unique hash st.fs csmPre src = .ok (false, st'.csm) ∧
          CsmLe st.csm csmPre ∧
          (NodupKeys st.csm.checksums → NodupKeys csmPre.checksums) ∧
          (∀ e ∈ csmPre.checksums, e ∈ st.csm.checksums ∨
            (∃ c', fsLookup st.fs e.1 = some c' ∧ e.2 = hash c' ∧
              (e.1 = src ∨ ∃ i, index ≤ i ∧ i ≤ k ∧ e.1 = candPath base suffix i)))) := by
  intro fuel
  induction fuel with
  | zero =>
    intro index st st' outc h
    cases h
  | succ fuel ih =>
    intro index st st' outc h
    rw [operate_file_succ] at h
    cases hcand : fsLookup st.fs (candPath base suffix index) with
    | some cex =>
      rw [hcand] at h
      dsimp only at h
      cases hproc : CheckSumManager.process hash st.fs st.csm (candPath base suffix index) with
      | error e => rw [hproc] at h; cases h
      | ok csm1 =>
        rw [hproc] at h
        dsimp only at h
        cases huniq : CheckSumManager.is_unique hash st.fs csm1 src with
        | error e => rw [huniq] at h; cases h
        | ok bc =>
          rw [huniq] at h
          obtain ⟨u, csm2⟩ := bc
          dsimp only at h
          have hle01 : CsmLe st.csm csm2 := fun e he =>
            is_unique_superset huniq e (process_superset hproc e he)
          have hnd01 : NodupKeys st.csm.checksums → NodupKeys csm2.checksums :=
            fun hn => is_unique_nodup huniq (process_nodup hproc hn)
          have hadd01 : ∀ e ∈ csm2.checksums, e ∈ st.csm.checksums ∨
              (∃ c', fsLookup st.fs e.1 = some c' ∧ e.2 = hash c' ∧
                (e.1 = src ∨ e.1 = candPath base suffix index)) := by
            intro e he
            rcases is_unique_additions huniq e he with he1 | ⟨hes, c', hc', hd'⟩
            · rcases process_additions hproc e he1 with he2 | ⟨hec, c', hc', hd'⟩
              · exact Or.inl he2
              · exact Or.inr ⟨c', hec ▸ hc', hd', Or.inr hec⟩
            · exact Or.inr ⟨c', hes ▸ hc', hd', Or.inl hes⟩
          cases u with
          | true =>
            rw [if_pos rfl] at h
            rcases ih h with ⟨hnb, herr, hcsm, hnd, hadd, htr, hdup⟩
            refine ⟨hnb, herr, fun e he => hcsm e (hle01 e he),
              fun hn => hnd (hnd01 hn), ?_, ?_, ?_⟩
            · intro e he
              rcases hadd e he with he1 | ⟨c', hc', hd', hsc⟩
              · rcases hadd01 e he1 with he2 | ⟨c', hc', hd', hsc⟩
                · exact Or.inl he2
                · refine Or.inr ⟨c', hc', hd', ?_⟩
                  rcases hsc with h1 | h1
                  · exact Or.inl h1
                  · exact Or.inr ⟨index, Nat.le_refl _, h1⟩
              · refine Or.inr ⟨c', hc', hd', ?_⟩
                rcases hsc with h1 | ⟨i, hi, hei⟩
                · exact Or.inl h1
                · exact Or.inr ⟨i, by omega, hei⟩
            · intro q hq
              rcases htr q hq with ⟨k, c, hk, hqk, hchain, hqfree, hsrc, hfs, hcounts⟩
              refine ⟨k, c, by omega, hqk, ?_, hqfree, hsrc, hfs, hcounts⟩
              intro i hi hik
              by_cases hii : i = index
              · subst hii
                rw [hcand]
                rfl
              · exact hchain i (by omega) hik
            · intro hq
              rcases hdup hq with ⟨hfs, hcounts, k, csmPre, hk, hchain, hiu, hleP, hndP, haddP⟩
              refine ⟨hfs, hcounts, k, csmPre, by omega, ?_, hiu,
                fun e he => hleP e (hle01 e he), fun hn => hndP (hnd01 hn), ?_⟩
              · intro i hi hik
                by_cases hii : i = index
                · subst hii
                  rw [hcand]
                  rfl
                · exact hchain i (by omega) hik
              · intro e he
                rcases haddP e he with he1 | ⟨c', hc', hd', hsc⟩
                · rcases hadd01 e he1 with he2 | ⟨c', hc', hd', hsc⟩
                  · exact Or.inl he2
                  · refine Or.inr ⟨c', hc', hd', ?_⟩
                    rcases hsc with h1 | h1
                    · exact Or.inl h1
                    · exact Or.inr ⟨index, Nat.le_refl _, by omega, h1⟩
                · refine Or.inr ⟨c', hc', hd', ?_⟩
                  rcases hsc with h1 | ⟨i, hi, hik2, hei⟩
                  · exact Or.inl h1
                  · exact Or.inr ⟨i, by omega, hik2, hei⟩
          | false =>
            rw [if_neg (by decide)] at h
            injection h with h1
            injection h1 with hst hout
            subst hout
            subst hst
            refine ⟨rfl, rfl, hle01, hnd01, ?_, ?_, ?_⟩
            · intro e he
              rcases hadd01 e he with he1 | ⟨c', hc', hd', hsc⟩
              · exact Or.inl he1
              · refine Or.inr ⟨c', hc', hd', ?_⟩
                rcases hsc with h1 | h1
                · exact Or.inl h1
                · exact Or.inr ⟨index, Nat.le_refl _, h1⟩
            · intro q hq
              cases hq
            · intro _
              refine ⟨rfl, rfl, index, csm1, Nat.le_refl _, ?_, huniq,
                fun e he => process_superset hproc e he,
                fun hn => process_nodup hproc hn, ?_⟩
              · intro i hi hik
                have : i = index := by omega
                subst this
                rw [hcand]
                rfl
              · intro e he
                rcases process_additions hproc e he with he1 | ⟨hec, c', hc', hd'⟩
                · exact Or.inl he1
                · exact Or.inr ⟨c', hec ▸ hc', hd',
                    Or.inr ⟨index, Nat.le_refl _, Nat.le_refl _, hec⟩⟩
    | none =>
      rw [hcand] at h
      dsimp only at h
      cases hsrc : fsLookup st.fs src with
      | none => rw [hsrc] at h; cases h
      | some c =>
        rw [hsrc] at h
        dsimp only at h
        injection h with h1
        injection h1 with hst hout
        subst hout
        subst hst
        refine ⟨rfl, rfl, fun e he => he, fun hn => hn, fun e he => Or.inl he, ?_, ?_⟩
        · intro q hq
          injection hq with hq
          subst hq
          refine ⟨index, c, Nat.le_refl _, rfl, ?_, hcand, rfl, ?_, rfl⟩
          · intro i hi hik
            omega
          · cases op <;> simp
        · intro hq
          cases hq

theorem operate_total {hash : Nat → Nat} {op : Op} {rm : Bool}
    {src base suffix : Str} {nd : Bool} :
    ∀ {j index fuel : Nat} {st : St} {c : Nat},
      fsLookup st.fs src = some c →
      fsLookup st.fs (candPath base suffix (index + j)) = none →
      j < fuel →
      ∃ st' outc,
        operate_file hash op rm src base suffix nd fuel index st = .ok (st', outc) := by
  intro j
  induction j with
  | zero =>
    intro index fuel st c hsrc hfree hfuel
    obtain ⟨f, rfl⟩ : ∃ f, fuel = f + 1 := ⟨fuel - 1, by omega⟩
    rw [operate_file_succ]
    rw [Nat.add_zero] at hfree
    rw [hfree]
    dsimp only
    rw [hsrc]
    exact ⟨_, _, rfl⟩
  | succ j ihj =>
    intro index fuel st c hsrc hfree hfuel
    obtain ⟨f, rfl⟩ : ∃ f, fuel = f + 1 := ⟨fuel - 1, by omega⟩
    rw [operate_file_succ]
    cases hcand : fsLookup st.fs (candPath base suffix index) with
    | none =>
      dsimp only
      rw [hsrc]
      exact ⟨_, _, rfl⟩
    | some cex =>
      dsimp only
      rcases @process_ok_of_mem hash st.fs st.csm _ cex hcand with ⟨csm1, hproc⟩
      rw [hproc]
      dsimp only
      rcases @is_unique_ok_of_mem hash st.fs csm1 src c hsrc with ⟨b, csm2, huniq⟩
      rw [huniq]
      dsimp only
      cases b with
      | false =>
        rw [if_neg (by decide)]
        exact ⟨_, _, rfl⟩
      | true =>
        rw [if_pos rfl]
        have hfree' : fsLookup st.fs (candPath base suffix ((index + 1) + j)) = none := by
          have : (index + 1) + j = index + (j + 1) := by omega
          rw [this]
          exact hfree
        exact @ihj (index + 1) f (St.mk st.fs csm2 st.lastNb st.counts st.errs) c
          hsrc hfree' (by omega)

theorem exists_free_cand (fs : List (Str × Nat)) (base suffix : Str) (index : Nat) :
    ∃ j, j ≤ fs.length ∧ fsLookup fs (candPath base suffix (index + j)) = none := by
  by_contra hc
  push_neg at hc
  have hmem : ∀ j, j ≤ fs.length → candPath base suffix (index + j) ∈ keysOf fs := by
    intro j hj
    have hne := hc j hj
    cases hl : fsLookup fs (candPath base suffix (index + j)) with
    | none => exact absurd hl hne
    | some c =>
      have := fsLookup_mem hl
      exact List.mem_map_of_mem Prod.fst this
  have hinj : Function.Injective (fun j => candPath base suffix (index + j)) := by
    intro a b hab
    have := candPath_inj hab
    omega
  have hnodup : ((List.range (fs.length + 1)).map
      (fun j => candPath base suffix (index + j))).Nodup :=
    (List.nodup_range _).map hinj
  have hsub : ∀ x ∈ (List.range (fs.length + 1)).map
      (fun j => candPath base suffix (index + j)), x ∈ keysOf fs := by
    intro x hx
    rcases List.mem_map.mp hx with ⟨j, hj, rfl⟩
    have hj' := List.mem_range.mp hj
    exact hmem j (by omega)
  have h1 : ((List.range (fs.length + 1)).map
      (fun j => candPath base suffix (index + j))).toFinset.card = fs.length + 1 := by
    rw [List.toFinset_card_of_nodup hnodup, List.length_map, List.length_range]
  have h2 : ((List.range (fs.length + 1)).map
      (fun j => candPath base suffix (index + j))).toFinset ⊆ (keysOf fs).toFinset := by
    intro x hx
    rw [List.mem_toFinset] at hx ⊢
    exact hsub x hx
  have h3 : (keysOf fs).toFinset.card ≤ fs.length := by
    calc (keysOf fs).toFinset.card ≤ (keysOf fs).length := List.toFinset_card_le _
    _ = fs.length := by simp [keysOf]
  have h4 := Finset.card_le_card h2
  omega

/-- Claim C1: the transfer primitive only ever writes to a candidate path
that was just checked not to exist, so a placement never overwrites an
existing destination file: the transferred path was absent beforehand, and
every other path (except a source removed by move) keeps its content. -/
theorem claim_C1 {hash : Nat → Nat} {op : Op} {rm : Bool}
    {src base suffix : Str} {nd : Bool} {fuel index : Nat} {st st' : St} {q : Str}
    (h : operate_file hash op rm src base suffix nd fuel index st =
      .ok (st', .transferred q)) :
    fsLookup st.fs q = none ∧
    (∀ p, p ≠ q → p ≠ src → fsLookup st'.fs p = fsLookup st.fs p) ∧
    (∃ c, fsLookup st.fs src = some c ∧ fsLookup st'.fs q = some c) := by
  rcases (operate_props h).2.2.2.2.2.1 q rfl with
    ⟨k, c, hk, hqk, hchain, hqfree, hsrc, hfs, hcounts⟩
  refine ⟨hqfree, ?_, c, hsrc, ?_⟩
  · intro p hpq hps
    rw [hfs, fsLookup, if_neg (fun hh => hpq hh.symm)]
    by_cases hop : op = .mv
    · rw [if_pos hop]
      exact fsErase_lookup_ne hps
    · rw [if_neg hop]
  · rw [hfs, fsLookup, if_pos rfl]

/-- Witness for claim C1: copying a single file to a free dated path. -/
theorem claim_C1_witness :
    (operate_file (fun c => c) Op.cp false ("s/a.jpg".data) ("d/x".data)
        (".jpg".data) false 1 0
        (St.mk [("s/a.jpg".data, 5)] (CheckSumManager.mk []) 0
          (Counts.mk 0 0 0 0) []) =
      .ok (St.mk [("d/x.jpg".data, 5), ("s/a.jpg".data, 5)] (CheckSumManager.mk [])
          0 (Counts.mk 0 0 1 0) [], .transferred ("d/x.jpg".data))) ∧
    (fsLookup [("s/a.jpg".data, 5)] ("d/x.jpg".data) = none ∧
      (∀ p, p ≠ "d/x.jpg".data → p ≠ "s/a.jpg".data →
        fsLookup [("d/x.jpg".data, 5), ("s/a.jpg".data, 5)] p =
          fsLookup [("s/a.jpg".data, 5)] p) ∧
      (∃ c, fsLookup [("s/a.jpg".data, 5)] ("s/a.jpg".data) = some c ∧
        fsLookup [("d/x.jpg".data, 5), ("s/a.jpg".data, 5)] ("d/x.jpg".data) = some c)) := by
  have h : operate_file (fun c => c) Op.cp false ("s/a.jpg".data) ("d/x".data)
      (".jpg".data) false 1 0
      (St.mk [("s/a.jpg".data, 5)] (CheckSumManager.mk []) 0
        (Counts.mk 0 0 0 0) []) =
      .ok (St.mk [("d/x.jpg".data, 5), ("s/a.jpg".data, 5)] (CheckSumManager.mk [])
          0 (Counts.mk 0 0 1 0) [], .transferred ("d/x.jpg".data)) := by rfl
  exact ⟨h, claim_C1 h⟩

/-- Claim C9: with the fuel process_file supplies, the collision-probing
loop always settles: for a readable source it reaches either a free
candidate path (transfer) or a duplicate verdict, and never runs out. -/
theorem claim_C9 {hash : Nat → Nat} {op : Op} {rm : Bool}
    {src base suffix : Str} {nd : Bool} {st : St} {c : Nat}
    (hsrc : fsLookup st.fs src = some c) :
    ∃ st' outc,
      operate_file hash op rm src base suffix nd (st.fs.length + 1) 0 st =
        .ok (st', outc) ∧
      (outc = .dup ∨ ∃ q, outc = .transferred q ∧ fsLookup st.fs q = none) := by
  rcases exists_free_cand st.fs base suffix 0 with ⟨j, hj, hfree⟩
  rcases operate_total hsrc hfree (Nat.lt_succ_of_le hj) with ⟨st', outc, hop⟩
  refine ⟨st', outc, hop, ?_⟩
  cases outc with
  | dup => exact Or.inl rfl
  | transferred q =>
    rcases (operate_props hop).2.2.2.2.2.1 q rfl with
      ⟨k, c', _, _, _, hqfree, _⟩
    exact Or.inr ⟨q, rfl, hqfree⟩

/-- Witness for claim C9: probing over an occupied candidate terminates
with a transfer at the next free suffix. -/
theorem claim_C9_witness :
    fsLookup [(("d/x.jpg".data : Str), 9), ("s/a.jpg".data, 5)] ("s/a.jpg".data) =
      some 5 ∧
    (∃ st' outc,
      operate_file (fun c => c) Op.cp false ("s/a.jpg".data) ("d/x".data)
          (".jpg".data) false
          ([(("d/x.jpg".data : Str), 9), ("s/a.jpg".data, 5)].length + 1) 0
          (St.mk [(("d/x.jpg".data : Str), 9), ("s/a.jpg".data, 5)]
            (CheckSumManager.mk []) 0 (Counts.mk 0 0 0 0) []) = .ok (st', outc) ∧
      (outc = .dup ∨ ∃ q, outc = .transferred q ∧
        fsLookup [(("d/x.jpg".data : Str), 9), ("s/a.jpg".data, 5)] q = none)) := by
  have hsrc : fsLookup [(("d/x.jpg".data : Str), 9), ("s/a.jpg".data, 5)]
      ("s/a.jpg".data) = some 5 := by rfl
  exact ⟨hsrc, @claim_C9 (fun c => c) Op.cp false ("s/a.jpg".data) ("d/x".data)
    (".jpg".data) false
    (St.mk [(("d/x.jpg".data : Str), 9), ("s/a.jpg".data, 5)]
      (CheckSumManager.mk []) 0 (Counts.mk 0 0 0 0) []) 5 hsrc⟩

/-- Claim C3: when the probed candidate path exists, operate_file first
fingerprints the existing file into the shared index, then checks the
global uniqueness of the source: if the source is unique it retries at the
next index, the candidates carrying the strictly escalating suffixes _1,
_2, ... between base name and extension (none at index 0); if the source
is not unique the file is declared a duplicate: it is not transferred, the
duplicate counter is incremented, and the source is deleted exactly when
the remove-duplicates option is enabled. -/
theorem claim_C3 {hash : Nat → Nat} {op : Op} {rm : Bool}
    {src base suffix : Str} {nd : Bool} {fuel index : Nat} {st : St}
    {cex csrc : Nat}
    (hcand : fsLookup st.fs (candPath base suffix index) = some cex)
    (hsrc : fsLookup st.fs src = some csrc) :
    ∃ csm1 u csm2 dcand,
      CheckSumManager.process hash st.fs st.csm (candPath base suffix index) =
        .ok csm1 ∧
      csm1.find (candPath base suffix index) = some dcand ∧
      CheckSumManager.is_unique hash st.fs csm1 src = .ok (u, csm2) ∧
      operate_file hash op rm src base suffix nd (fuel + 1) index st =
        (if u then
          operate_file hash op rm src base suffix nd fuel (index + 1)
            (St.mk st.fs csm2 st.lastNb st.counts st.errs)
        else
          .ok (St.mk (if rm then fsErase st.fs src else st.fs) csm2
                 st.lastNb st.counts.addDup st.errs, .dup)) ∧
      candPath base suffix 0 = base ++ suffix ∧
      (∀ n : Nat, candPath base suffix (n + 1) =
        base ++ ('_' :: toDec (n + 1)) ++ suffix) := by
  rcases @process_ok_of_mem hash st.fs st.csm _ cex hcand with ⟨csm1, hproc⟩
  rcases process_find_self hproc with ⟨dcand, hfind⟩
  rcases @is_unique_ok_of_mem hash st.fs csm1 src csrc hsrc with ⟨u, csm2, huniq⟩
  refine ⟨csm1, u, csm2, dcand, hproc, hfind, huniq, ?_, ?_, ?_⟩
  · rw [operate_file_succ, hcand]
    dsimp only
    rw [hproc]
    dsimp only
    rw [huniq]
  · simp [candPath, strIndex]
  · intro n
    simp [candPath, strIndex]

/-- Witness for claim C3: an occupied candidate with a unique source makes
the loop retry at suffix index 1. -/
theorem claim_C3_witness :
    fsLookup [(("d/x.jpg".data : Str), 9), ("s/a.jpg".data, 5)] ("d/x".data ++ strIndex 0 ++ ".jpg".data) = some 9 ∧
    fsLookup [(("d/x.jpg".data : Str), 9), ("s/a.jpg".data, 5)] ("s/a.jpg".data) = some 5 ∧
    (∃ csm1 u csm2 dcand,
      CheckSumManager.process (fun c => c)
          [(("d/x.jpg".data : Str), 9), ("s/a.jpg".data, 5)]
          (CheckSumManager.mk []) (candPath ("d/x".data) (".jpg".data) 0) =
        .ok csm1 ∧
      csm1.find (candPath ("d/x".data) (".jpg".data) 0) = some dcand ∧
      CheckSumManager.is_unique (fun c => c)
          [(("d/x.jpg".data : Str), 9), ("s/a.jpg".data, 5)] csm1
          ("s/a.jpg".data) = .ok (u, csm2) ∧
      operate_file (fun c => c) Op.cp false ("s/a.jpg".data) ("d/x".data)
          (".jpg".data) false (1 + 1) 0
          (St.mk [(("d/x.jpg".data : Str), 9), ("s/a.jpg".data, 5)]
            (CheckSumManager.mk []) 0 (Counts.mk 0 0 0 0) []) =
        (if u then
          operate_file (fun c => c) Op.cp false ("s/a.jpg".data) ("d/x".data)
            (".jpg".data) false 1 (0 + 1)
            (St.mk [(("d/x.jpg".data : Str), 9), ("s/a.jpg".data, 5)] csm2 0
              (Counts.mk 0 0 0 0) [])
        else
          .ok (St.mk (if false then fsErase
                 [(("d/x.jpg".data : Str), 9), ("s/a.jpg".data, 5)] ("s/a.jpg".data)
               else [(("d/x.jpg".data : Str), 9), ("s/a.jpg".data, 5)]) csm2 0
                 (Counts.mk 0 0 0 0).addDup [], .dup)) ∧
      candPath ("d/x".data) (".jpg".data) 0 = "d/x".data ++ ".jpg".data ∧
      (∀ n : Nat, candPath ("d/x".data) (".jpg".data) (n + 1) =
        "d/x".data ++ ('_' :: toDec (n + 1)) ++ ".jpg".data)) := by
  have hcand : fsLookup [(("d/x.jpg".data : Str), 9), ("s/a.jpg".data, 5)]
      (candPath ("d/x".data) (".jpg".data) 0) = some 9 := by rfl
  have hsrc : fsLookup [(("d/x.jpg".data : Str), 9), ("s/a.jpg".data, 5)]
      ("s/a.jpg".data) = some 5 := by rfl
  exact ⟨hcand, hsrc,
    @claim_C3 (fun c => c) Op.cp false ("s/a.jpg".data) ("d/x".data) (".jpg".data)
      false 1 0
      (St.mk [(("d/x.jpg".data : Str), 9), ("s/a.jpg".data, 5)]
        (CheckSumManager.mk []) 0 (Counts.mk 0 0 0 0) []) 9 5 hcand hsrc⟩

/- ------------------------------------------------------------------ -/
/- process_file and the traversal                                      -/
/- ------------------------------------------------------------------ -/

theorem startsW_append_self : ∀ (p rest : Str), startsW p (p ++ rest) = true := by
  intro p
  induction p with
  | nil => intro rest; rfl
  | cons c cs ih => intro rest; simp [startsW, ih]

theorem process_file_eq_dated {hash : Nat → Nat} {exifOf : Nat → Option Str}
    {op : Op} {rm : Bool} {destFolder : Str} {f : SrcFile} {st : St} {c : Nat}
    {dn : Str × Str}
    (hc : fsLookup st.fs f.path = some c)
    (hb : (exifOf c).bind (parseDatePath destFolder) = some dn) :
    process_file hash exifOf op rm destFolder f st =
      operate_file hash op rm f.path (dn.1 ++ '/' :: dn.2) f.ext false
        (st.fs.length + 1) 0 st := by
  unfold process_file
  rw [hc]
  dsimp only
  rw [hb]

theorem process_file_eq_undated {hash : Nat → Nat} {exifOf : Nat → Option Str}
    {op : Op} {rm : Bool} {destFolder : Str} {f : SrcFile} {st : St} {c : Nat}
    (hc : fsLookup st.fs f.path = some c)
    (hb : (exifOf c).bind (parseDatePath destFolder) = none) :
    process_file hash exifOf op rm destFolder f st =
      match CheckSumManager.is_unique hash st.fs st.csm f.path with
      | .error e => .error e
      | .ok (u, csm1) =>
        if u then
          operate_file hash op rm f.path
            (noExifDir destFolder ++ '/' :: (get_next_file_name st.lastNb).2) f.ext
            true (st.fs.length + 1) 0
            (St.mk st.fs csm1 (get_next_file_name st.lastNb).1 st.counts st.errs)
        else
          .ok (St.mk (if rm then fsErase st.fs f.path else st.fs) csm1
                 st.lastNb st.counts.addDup st.errs, .dup) := by
  unfold process_file
  rw [hc]
  dsimp only
  rw [hb]

theorem process_file_shape {hash : Nat → Nat} {exifOf : Nat → Option Str}
    {op : Op} {rm : Bool} {destFolder : Str} {f : SrcFile} {st st' : St}
    {outc : Outc}
    (h : process_file hash exifOf op rm destFolder f st = .ok (st', outc)) :
    st'.errs = st.errs ∧
    st'.counts.total_processed = st.counts.total_processed ∧
    (outc = .dup →
      st'.counts.duplicate = st.counts.duplicate + 1 ∧
      st'.counts.total_collected = st.counts.total_collected ∧
      st'.counts.no_date_collected = st.counts.no_date_collected ∧
      st'.fs = (if rm then fsErase st.fs f.path else st.fs)) ∧
    (∀ q, outc = .transferred q →
      st'.counts.duplicate = st.counts.duplicate ∧
      ∃ c, fsLookup st.fs q = none ∧ fsLookup st.fs f.path = some c ∧
        st'.fs = (q, c) :: (if op = .mv then fsErase st.fs f.path else st.fs)) := by
  unfold process_file at h
  cases hc : fsLookup st.fs f.path with
  | none => rw [hc] at h; cases h
  | some c =>
    rw [hc] at h
    dsimp only at h
    cases hb : (exifOf c).bind (parseDatePath destFolder) with
    | some dn =>
      rw [hb] at h
      dsimp only at h
      have hp := operate_props h
      refine ⟨hp.2.1, ?_, ?_, ?_⟩
      · rcases hout : outc with q | _
        · rcases hp.2.2.2.2.2.1 q hout with ⟨_, _, _, _, _, _, _, _, hcounts⟩
          rw [hcounts]
          rfl
        · rcases hp.2.2.2.2.2.2 hout with ⟨_, hcounts, _⟩
          rw [hcounts]
          rfl
      · intro hout
        rcases hp.2.2.2.2.2.2 hout with ⟨hfs, hcounts, _⟩
        rw [hcounts, hfs]
        exact ⟨rfl, rfl, rfl, rfl⟩
      · intro q hout
        rcases hp.2.2.2.2.2.1 q hout with ⟨k, c', _, _, _, hqfree, hsrc, hfs, hcounts⟩
        rw [hcounts, hfs]
        exact ⟨rfl, c', hqfree, hc ▸ hsrc, rfl⟩
    | none =>
      rw [hb] at h
      dsimp only at h
      cases hu : CheckSumManager.is_unique hash st.fs st.csm f.path with
      | error e => rw [hu] at h; cases h
      | ok bc =>
        rw [hu] at h
        obtain ⟨u, csm1⟩ := bc
        dsimp only at h
        cases u with
        | false =>
          rw [if_neg (by decide)] at h
          injection h with h1
          injection h1 with hst hout
          subst hout
          subst hst
          refine ⟨rfl, rfl, ?_, ?_⟩
          · intro _
            exact ⟨rfl, rfl, rfl, rfl⟩
          · intro q hq
            cases hq
        | true =>
          rw [if_pos rfl] at h
          have hp := operate_props h
          refine ⟨hp.2.1, ?_, ?_, ?_⟩
          · rcases hout : outc with q | _
            · rcases hp.2.2.2.2.2.1 q hout with ⟨_, _, _, _, _, _, _, _, hcounts⟩
              rw [hcounts]
              rfl
            · rcases hp.2.2.2.2.2.2 hout with ⟨_, hcounts, _⟩
              rw [hcounts]
              rfl
          · intro hout
            rcases hp.2.2.2.2.2.2 hout with ⟨hfs, hcounts, _⟩
            rw [hcounts, hfs]
            exact ⟨rfl, rfl, rfl, rfl⟩
          · intro q hout
            rcases hp.2.2.2.2.2.1 q hout with ⟨k, c', _, _, _, hqfree, hsrc, hfs, hcounts⟩
            rw [hcounts, hfs]
            exact ⟨rfl, c', hqfree, hc ▸ hsrc, rfl⟩

/-- Claim C7: a missing date tag, an unparsable tag, and in particular the
all-zero date 0000:00:00 00:00:00 are all treated as "no date": the file
takes the undated route, which ends in a duplicate verdict or a placement
under the undated folder, never in a dated folder and never in an error. -/
theorem claim_C7 {hash : Nat → Nat} {exifOf : Nat → Option Str} {op : Op}
    {rm : Bool} {destFolder : Str} {f : SrcFile} {st : St} {c : Nat}
    (hc : fsLookup st.fs f.path = some c)
    (hmeta : exifOf c = none ∨
      ∃ t, exifOf c = some t ∧ parseDatePath destFolder t = none) :
    parseDatePath destFolder ("0000:00:00 00:00:00".data) = none ∧
    ∃ st' outc, process_file hash exifOf op rm destFolder f st = .ok (st', outc) ∧
      (outc = .dup ∨ ∃ q, outc = .transferred q ∧
        startsW (noExifDir destFolder ++ ['/']) q = true) := by
  have hzero : parseDatePath destFolder ("0000:00:00 00:00:00".data) = none := by rfl
  have hb : (exifOf c).bind (parseDatePath destFolder) = none := by
    rcases hmeta with hm | ⟨t, ht, hp⟩
    · rw [hm]
      rfl
    · rw [ht]
      exact hp
  refine ⟨hzero, ?_⟩
  rw [process_file_eq_undated hc hb]
  rcases @is_unique_ok_of_mem hash st.fs st.csm f.path c hc with ⟨u, csm1, hu⟩
  rw [hu]
  dsimp only
  cases u with
  | false =>
    rw [if_neg (by decide)]
    exact ⟨_, _, rfl, Or.inl rfl⟩
  | true =>
    rw [if_pos rfl]
    rcases exists_free_cand st.fs
        (noExifDir destFolder ++ '/' :: (get_next_file_name st.lastNb).2) f.ext 0
      with ⟨j, hj, hfree⟩
    rcases @operate_total hash op rm f.path
        (noExifDir destFolder ++ '/' :: (get_next_file_name st.lastNb).2) f.ext true
        j 0 (st.fs.length + 1)
        (St.mk st.fs csm1 (get_next_file_name st.lastNb).1 st.counts st.errs) c
        hc hfree (Nat.lt_succ_of_le hj) with ⟨st', outc, hop⟩
    refine ⟨st', outc, hop, ?_⟩
    cases outc with
    | dup => exact Or.inl rfl
    | transferred q =>
      rcases (operate_props hop).2.2.2.2.2.1 q rfl with
        ⟨k, c', hk, hqk, _, _, _, _, _⟩
      refine Or.inr ⟨q, rfl, ?_⟩
      have hq : q = (noExifDir destFolder ++ ['/']) ++
          ((get_next_file_name st.lastNb).2 ++ strIndex k ++ f.ext) := by
        rw [hqk]
        simp [candPath, List.append_assoc]
      rw [hq]
      exact startsW_append_self _ _

/-- Witness for claim C7: a file with no EXIF tag is routed to the
undated folder. -/
theorem claim_C7_witness :
    fsLookup [(("s/u.cr2".data : Str), 50)] ("s/u.cr2".data) = some 50 ∧
    ((fun _ : Nat => (none : Option Str)) 50 = none ∨
      ∃ t, (fun _ : Nat => (none : Option Str)) 50 = some t ∧
        parseDatePath "d".data t = none) ∧
    (parseDatePath "d".data ("0000:00:00 00:00:00".data) = none ∧
      ∃ st' outc, process_file (fun c => c) (fun _ => none) Op.cp false "d".data
          (SrcFile.mk "s/u.cr2".data ".cr2".data)
          (St.mk [(("s/u.cr2".data : Str), 50)] (CheckSumManager.mk []) 0
            (Counts.mk 0 0 0 0) []) = .ok (st', outc) ∧
        (outc = .dup ∨ ∃ q, outc = .transferred q ∧
          startsW (noExifDir "d".data ++ ['/']) q = true)) := by
  have hc : fsLookup [(("s/u.cr2".data : Str), 50)] ("s/u.cr2".data) = some 50 := by
    rfl
  have hmeta : (fun _ : Nat => (none : Option Str)) 50 = none ∨
      ∃ t, (fun _ : Nat => (none : Option Str)) 50 = some t ∧
        parseDatePath "d".data t = none := Or.inl rfl
  exact ⟨hc, hmeta, claim_C7 hc hmeta⟩

theorem browseList_cons {hash : Nat → Nat} {exifOf : Nat → Option Str} {op : Op}
    {rm : Bool} {destFolder : Str} (f : SrcFile) (rest : List SrcFile) (st : St) :
    browseList hash exifOf op rm destFolder (f :: rest) st =
      if eligible f then
        browseList hash exifOf op rm destFolder rest
          (browseStep hash exifOf op rm destFolder f st)
      else browseList hash exifOf op rm destFolder rest st := by
  show (if eligible f then _ else _) = _
  by_cases he : eligible f = true
  · rw [if_pos he, if_pos he]
    unfold browseStep
    cases hp : process_file hash exifOf op rm destFolder f st with
    | ok res => rfl
    | error e => rfl
  · rw [if_neg he, if_neg he]

theorem browseList_append {hash : Nat → Nat} {exifOf : Nat → Option Str} {op : Op}
    {rm : Bool} {destFolder : Str} :
    ∀ (xs ys : List SrcFile) (st : St),
      browseList hash exifOf op rm destFolder (xs ++ ys) st =
        browseList hash exifOf op rm destFolder ys
          (browseList hash exifOf op rm destFolder xs st) := by
  intro xs
  induction xs with
  | nil => intro ys st; rfl
  | cons f rest ih =>
    intro ys st
    rw [List.cons_append, browseList_cons, browseList_cons]
    by_cases he : eligible f = true
    · rw [if_pos he, if_pos he, ih]
    · rw [if_neg he, if_neg he, ih]

theorem browseStep_processed {hash : Nat → Nat} {exifOf : Nat → Option Str}
    {op : Op} {rm : Bool} {destFolder : Str} {f : SrcFile} {st : St} :
    (browseStep hash exifOf op rm destFolder f st).counts.total_processed =
      st.counts.total_processed + 1 := by
  unfold browseStep
  cases hp : process_file hash exifOf op rm destFolder f st with
  | ok res =>
    have := (process_file_shape hp).2.1
    dsimp only
    rw [Counts.addProcessed, this]
  | error e => rfl

theorem browseList_processed {hash : Nat → Nat} {exifOf : Nat → Option Str}
    {op : Op} {rm : Bool} {destFolder : Str} :
    ∀ (files : List SrcFile) (st : St),
      (browseList hash exifOf op rm destFolder files st).counts.total_processed =
        st.counts.total_processed + (files.filter eligible).length := by
  intro files
  induction files with
  | nil => intro st; rfl
  | cons f rest ih =>
    intro st
    rw [browseList_cons]
    by_cases he : eligible f = true
    · rw [if_pos he, ih, browseStep_processed]
      simp [List.filter, he]
      omega
    · rw [if_neg he, ih]
      simp [List.filter, Bool.of_not_eq_true he]

theorem browseList_errs_mono {hash : Nat → Nat} {exifOf : Nat → Option Str}
    {op : Op} {rm : Bool} {destFolder : Str} :
    ∀ (files : List SrcFile) (st : St),
      ∃ tail, (browseList hash exifOf op rm destFolder files st).errs =
        st.errs ++ tail := by
  intro files
  induction files with
  | nil => intro st; exact ⟨[], by simp [browseList]⟩
  | cons f rest ih =>
    intro st
    rw [browseList_cons]
    by_cases he : eligible f = true
    · rw [if_pos he]
      unfold browseStep
      cases hp : process_file hash exifOf op rm destFolder f st with
      | ok res =>
        dsimp only
        rcases ih (St.mk res.1.fs res.1.csm res.1.lastNb res.1.counts.addProcessed
          res.1.errs) with ⟨tail, htail⟩
        rw [htail]
        have herrs := (process_file_shape hp).1
        dsimp only
        rw [herrs]
        exact ⟨tail, rfl⟩
      | error e =>
        dsimp only
        rcases ih (St.mk st.fs st.csm st.lastNb st.counts.addProcessed
          (st.errs ++ [(f.path, e)])) with ⟨tail, htail⟩
        rw [htail]
        exact ⟨(f.path, e) :: tail, by simp⟩
    · rw [if_neg he]
      exact ih st

/-- Claim C8: a per-file error during traversal is caught at the per-file
boundary, recorded with the file path and the underlying cause, and never
halts the run: every eligible file of the whole list is still counted as
processed. -/
theorem claim_C8 {hash : Nat → Nat} {exifOf : Nat → Option Str} {op : Op}
    {rm : Bool} {destFolder : Str} {xs ys : List SrcFile} {f : SrcFile}
    {st : St} {e : Err}
    (helig : eligible f = true)
    (herr : process_file hash exifOf op rm destFolder f
      (browseList hash exifOf op rm destFolder xs st) = .error e) :
    (f.path, e) ∈
      (browseList hash exifOf op rm destFolder (xs ++ f :: ys) st).errs ∧
    (browseList hash exifOf op rm destFolder (xs ++ f :: ys) st).counts.total_processed =
      st.counts.total_processed + ((xs ++ f :: ys).filter eligible).length := by
  refine ⟨?_, browseList_processed _ _⟩
  rw [browseList_append, browseList_cons, if_pos helig]
  rcases browseList_errs_mono ys
      (browseStep hash exifOf op rm destFolder f
        (browseList hash exifOf op rm destFolder xs st)) with ⟨tail, htail⟩
  rw [htail]
  unfold browseStep
  rw [herr]
  dsimp only
  simp

/-- Witness for claim C8: a file whose path cannot be read raises a
read error that is recorded while the run completes. -/
theorem claim_C8_witness :
    eligible (SrcFile.mk "s/missing.jpg".data ".jpg".data) = true ∧
    process_file (fun c => c) (fun _ => none) Op.cp false "d".data
        (SrcFile.mk "s/missing.jpg".data ".jpg".data)
        (browseList (fun c => c) (fun _ => none) Op.cp false "d".data []
          (St.mk [] (CheckSumManager.mk []) 0 (Counts.mk 0 0 0 0) [])) =
      .error (.readErr ("s/missing.jpg".data)) ∧
    ((("s/missing.jpg".data : Str), Err.readErr ("s/missing.jpg".data)) ∈
      (browseList (fun c => c) (fun _ => none) Op.cp false "d".data
        ([] ++ SrcFile.mk "s/missing.jpg".data ".jpg".data :: [])
        (St.mk [] (CheckSumManager.mk []) 0 (Counts.mk 0 0 0 0) [])).errs ∧
      (browseList (fun c => c) (fun _ => none) Op.cp false "d".data
        ([] ++ SrcFile.mk "s/missing.jpg".data ".jpg".data :: [])
        (St.mk [] (CheckSumManager.mk []) 0
          (Counts.mk 0 0 0 0) [])).counts.total_processed =
        (Counts.mk 0 0 0 0).total_processed +
          (([] ++ SrcFile.mk "s/missing.jpg".data ".jpg".data :: []).filter
            eligible).length) := by
  have helig : eligible (SrcFile.mk "s/missing.jpg".data ".jpg".data) = true := by
    decide
  have herr : process_file (fun c => c) (fun _ => none) Op.cp false "d".data
      (SrcFile.mk "s/missing.jpg".data ".jpg".data)
      (browseList (fun c => c) (fun _ => none) Op.cp false "d".data []
        (St.mk [] (CheckSumManager.mk []) 0 (Counts.mk 0 0 0 0) [])) =
      .error (.readErr ("s/missing.jpg".data)) := by rfl
  exact ⟨helig, herr, claim_C8 helig herr⟩

/- ------------------------------------------------------------------ -/
/- Claim C5: support lemmas                                            -/
/- ------------------------------------------------------------------ -/

theorem fsLe_refl (fs : List (Str × Nat)) : FsLe fs fs := fun _ _ h => h

theorem fsLe_trans {a b c : List (Str × Nat)} (h1 : FsLe a b) (h2 : FsLe b c) :
    FsLe a c := fun p cp hp => h2 p cp (h1 p cp hp)

theorem fsLe_isSome {fs fs' : List (Str × Nat)} (h : FsLe fs fs') {p : Str}
    (hp : (fsLookup fs p).isSome = true) : (fsLookup fs' p).isSome = true := by
  cases hl : fsLookup fs p with
  | none => rw [hl] at hp; cases hp
  | some c => rw [h p c hl]; rfl

theorem fsLe_insert {fs : List (Str × Nat)} {q : Str} {c : Nat}
    (hq : fsLookup fs q = none) : FsLe fs ((q, c) :: fs) :=
  fun p cp hp => fsLookup_mono_insert hq hp

theorem selfIdx_mono {exifOf : Nat → Option Str} {destFolder : Str}
    {FS FS' : List (Str × Nat)} {f : SrcFile} {c : Nat} (hle : FsLe FS FS')
    (h : SelfIdx exifOf destFolder FS f c) : SelfIdx exifOf destFolder FS' f c := by
  unfold SelfIdx at h ⊢
  cases hb : datedBase exifOf destFolder c with
  | none => trivial
  | some b =>
    rw [hb] at h
    exact fsLe_isSome hle h

theorem dupWit_mono {hash : Nat → Nat} {exifOf : Nat → Option Str}
    {destFolder : Str} {FS FS' : List (Str × Nat)} {earlier : List SrcFile}
    {f : SrcFile} {c : Nat} (hle : FsLe FS FS')
    (h : DupWit hash exifOf destFolder FS earlier f c) :
    DupWit hash exifOf destFolder FS' earlier f c := by
  rcases h with ⟨p1, cp1, hu, hl, hh⟩ | ⟨g, hg, he, cg, hl, hh⟩ | ⟨b, i, hb, hch, ci, hl, hh⟩
  · exact Or.inl ⟨p1, cp1, hu, hle _ _ hl, hh⟩
  · exact Or.inr (Or.inl ⟨g, hg, he, cg, hle _ _ hl, hh⟩)
  · exact Or.inr (Or.inr ⟨b, i, hb, fun i' hi' => fsLe_isSome hle (hch i' hi'),
      ci, hle _ _ hl, hh⟩)

theorem dupWit_mono_earlier {hash : Nat → Nat} {exifOf : Nat → Option Str}
    {destFolder : Str} {FS : List (Str × Nat)} {e1 e2 : List SrcFile}
    {f : SrcFile} {c : Nat} (hsub : ∀ g ∈ e1, g ∈ e2)
    (h : DupWit hash exifOf destFolder FS e1 f c) :
    DupWit hash exifOf destFolder FS e2 f c := by
  rcases h with h | ⟨g, hg, he, cg, hl, hh⟩ | h
  · exact Or.inl h
  · exact Or.inr (Or.inl ⟨g, hsub g hg, he, cg, hl, hh⟩)
  · exact Or.inr (Or.inr h)

theorem entryClass_mono {hash : Nat → Nat} {destFolder : Str}
    {fs0 FS FS' : List (Str × Nat)} {P : List SrcFile} {q : Str} {dq : Nat}
    (hle : FsLe FS FS') (h : EntryClass hash destFolder fs0 FS P q dq) :
    EntryClass hash destFolder fs0 FS' P q dq := by
  rcases h with h | ⟨g, hg, he, cg, hl, hh⟩ | h
  · exact Or.inl h
  · exact Or.inr (Or.inl ⟨g, hg, he, cg, hle _ _ hl, hh⟩)
  · exact Or.inr (Or.inr h)

theorem entryClass_widen {hash : Nat → Nat} {destFolder : Str}
    {fs0 FS : List (Str × Nat)} {P P' : List SrcFile} {q : Str} {dq : Nat}
    (hsub : ∀ g ∈ P, g ∈ P') (h : EntryClass hash destFolder fs0 FS P q dq) :
    EntryClass hash destFolder fs0 FS P' q dq := by
  rcases h with h | ⟨g, hg, he, cg, hl, hh⟩ | h
  · exact Or.inl h
  · exact Or.inr (Or.inl ⟨g, hsub g hg, he, cg, hl, hh⟩)
  · exact Or.inr (Or.inr h)

theorem startsW_append_elim :
    ∀ {a p b : Str}, startsW (a ++ b) p = true → startsW a p = true := by
  intro a
  induction a with
  | nil => intro p b _; rfl
  | cons c as ih =>
    intro p b h
    cases p with
    | nil => exact absurd h (by simp [startsW])
    | cons x xs =>
      simp only [List.cons_append, startsW] at h ⊢
      by_cases hc : c = x
      · rw [if_pos hc] at h ⊢
        exact ih h
      · rw [if_neg hc] at h
        cases h

theorem parseDatePath_dir {destFolder t : Str} {dn : Str × Str}
    (h : parseDatePath destFolder t = some dn) :
    ∃ rest, dn.1 = destFolder ++ '/' :: rest := by
  unfold parseDatePath at h
  cases hs : splitChar ' ' t with
  | nil => rw [hs] at h; cases h
  | cons ymd r1 =>
    rw [hs] at h
    cases r1 with
    | nil => cases h
    | cons hms r2 =>
      cases r2 with
      | cons z zs => cases h
      | nil =>
        dsimp only at h
        cases h1 : splitChar ':' ymd with
        | nil => rw [h1] at h; cases h
        | cons yyyy s1 =>
          rw [h1] at h
          cases s1 with
          | nil => cases h
          | cons mm s2 =>
            cases s2 with
            | nil => cases h
            | cons dd s3 =>
              cases s3 with
              | cons w ws => cases h
              | nil =>
                cases h2 : splitChar ':' hms with
                | nil => rw [h2] at h; cases h
                | cons hh t1 =>
                  rw [h2] at h
                  cases t1 with
                  | nil => cases h
                  | cons mi t2 =>
                    cases t2 with
                    | nil => cases h
                    | cons ss t3 =>
                      cases t3 with
                      | cons w ws => cases h
                      | nil =>
                        dsimp only at h
                        by_cases hz : yyyy ++ '-' :: mm ++ '-' :: dd ++ '_' :: hh ++
                            '-' :: mi ++ '-' :: ss = "0000-00-00_00-00-00".data
                        · rw [if_pos hz] at h
                          cases h
                        · rw [if_neg hz] at h
                          injection h with h3
                          exact ⟨yyyy ++ '-' :: mm, by rw [← h3]⟩

theorem startsW_candPath {pre rest ext : Str} {i : Nat} :
    startsW pre (candPath (pre ++ rest) ext i) = true := by
  unfold candPath
  have hassoc : (pre ++ rest) ++ strIndex i ++ ext =
      pre ++ (rest ++ strIndex i ++ ext) := by
    simp [List.append_assoc]
  rw [hassoc]
  exact startsW_append_self _ _

theorem cons_as_append {dest : Str} {r : Str} :
    dest ++ '/' :: r = (dest ++ ['/']) ++ r := by
  simp

theorem chain_length_bound {fs : List (Str × Nat)} {b ext : Str} {i : Nat}
    (h : ∀ i', i' ≤ i → (fsLookup fs (candPath b ext i')).isSome = true) :
    i < fs.length := by
  have hmem : ∀ j ∈ List.range (i + 1), candPath b ext j ∈ keysOf fs := by
    intro j hj
    have hj' := List.mem_range.mp hj
    have hs := h j (by omega)
    cases hl : fsLookup fs (candPath b ext j) with
    | none => rw [hl] at hs; cases hs
    | some c => exact List.mem_map_of_mem Prod.fst (fsLookup_mem hl)
  have hinj : Function.Injective (fun j => candPath b ext j) := by
    intro a b hab
    exact candPath_inj hab
  have hnodup : ((List.range (i + 1)).map (fun j => candPath b ext j)).Nodup :=
    (List.nodup_range _).map hinj
  have h1 : ((List.range (i + 1)).map (fun j => candPath b ext j)).toFinset.card =
      i + 1 := by
    rw [List.toFinset_card_of_nodup hnodup, List.length_map, List.length_range]
  have h2 : ((List.range (i + 1)).map (fun j => candPath b ext j)).toFinset ⊆
      (keysOf fs).toFinset := by
    intro x hx
    rw [List.mem_toFinset] at hx ⊢
    rcases List.mem_map.mp hx with ⟨j, hj, rfl⟩
    exact hmem j hj
  have h3 : (keysOf fs).toFinset.card ≤ fs.length := by
    calc (keysOf fs).toFinset.card ≤ (keysOf fs).length := List.toFinset_card_le _
    _ = fs.length := by simp [keysOf]
  have h4 := Finset.card_le_card h2
  omega

theorem noExifGo_ok {hash : Nat → Nat} {fs : List (Str × Nat)} :
    ∀ {list : List (Str × Nat)} {nb : Nat} {csm : CheckSumManager},
      (∀ e ∈ list, (fsLookup fs e.1).isSome = true) →
      ∃ nb' csm', noExifGo hash fs list nb csm = .ok (nb', csm') := by
  intro list
  induction list with
  | nil => intro nb csm _; exact ⟨nb, csm, rfl⟩
  | cons x rest ih =>
    intro nb csm hall
    have hx := hall x (List.mem_cons_self _ _)
    cases hl : fsLookup fs x.1 with
    | none => rw [hl] at hx; cases hx
    | some c =>
      rcases @process_ok_of_mem hash fs csm x.1 c hl with ⟨csm1, hp⟩
      unfold noExifGo
      rw [hp]
      dsimp only
      exact ih (fun e he => hall e (List.mem_cons_of_mem _ he))

theorem noExifInit_ok {hash : Nat → Nat} {fs : List (Str × Nat)} {dest : Str}
    {csm : CheckSumManager} :
    ∃ nb' csm', noExifInit hash fs dest csm = .ok (nb', csm') := by
  apply noExifGo_ok
  intro e he
  rcases (mem_filesUnder.mp he).1 with hmem
  rcases fsLookup_isSome_of_mem hmem with ⟨c', hc'⟩
  rw [hc']
  rfl

theorem process_file_total {hash : Nat → Nat} {exifOf : Nat → Option Str}
    {op : Op} {rm : Bool} {destFolder : Str} {f : SrcFile} {st : St} {c : Nat}
    (hc : fsLookup st.fs f.path = some c) :
    ∃ st' outc, process_file hash exifOf op rm destFolder f st = .ok (st', outc) := by
  cases hb : (exifOf c).bind (parseDatePath destFolder) with
  | some dn =>
    rw [process_file_eq_dated hc hb]
    rcases exists_free_cand st.fs (dn.1 ++ '/' :: dn.2) f.ext 0 with ⟨j, hj, hfree⟩
    exact operate_total hc hfree (Nat.lt_succ_of_le hj)
  | none =>
    rw [process_file_eq_undated hc hb]
    rcases @is_unique_ok_of_mem hash st.fs st.csm f.path c hc with ⟨u, csm1, hu⟩
    rw [hu]
    dsimp only
    cases u with
    | false =>
      rw [if_neg (by decide)]
      exact ⟨_, _, rfl⟩
    | true =>
      rw [if_pos rfl]
      rcases exists_free_cand st.fs
          (noExifDir destFolder ++ '/' :: (get_next_file_name st.lastNb).2) f.ext 0
        with ⟨j, hj, hfree⟩
      exact @operate_total hash op rm f.path
        (noExifDir destFolder ++ '/' :: (get_next_file_name st.lastNb).2) f.ext true
        j 0 (st.fs.length + 1)
        (St.mk st.fs csm1 (get_next_file_name st.lastNb).1 st.counts st.errs) c
        hc hfree (Nat.lt_succ_of_le hj)

theorem process_file_cp_fs {hash : Nat → Nat} {exifOf : Nat → Option Str}
    {destFolder : Str} {f : SrcFile} {st st' : St} {outc : Outc}
    (h : process_file hash exifOf .cp false destFolder f st = .ok (st', outc)) :
    FsLe st.fs st'.fs ∧
    (outc = .dup → st'.fs = st.fs) ∧
    (∀ q, outc = .transferred q → ∃ c, fsLookup st.fs q = none ∧
      fsLookup st.fs f.path = some c ∧ st'.fs = (q, c) :: st.fs) := by
  have hs := process_file_shape h
  have hdup : outc = .dup → st'.fs = st.fs := by
    intro ho
    have := (hs.2.2.1 ho).2.2.2
    simpa using this
  have htr : ∀ q, outc = .transferred q → ∃ c, fsLookup st.fs q = none ∧
      fsLookup st.fs f.path = some c ∧ st'.fs = (q, c) :: st.fs := by
    intro q ho
    rcases (hs.2.2.2 q ho).2 with ⟨c, hfree, hcl, hfs⟩
    refine ⟨c, hfree, hcl, ?_⟩
    simpa using hfs
  refine ⟨?_, hdup, htr⟩
  cases outc with
  | dup =>
    rw [hdup rfl]
    exact fsLe_refl _
  | transferred q =>
    rcases htr q rfl with ⟨c, hfree, hcl, hfs⟩
    rw [hfs]
    exact fsLe_insert hfree

theorem operate_csmF {hash : Nat → Nat} {op : Op} {rm : Bool}
    {src base suffix : Str} {nd : Bool} {fuel index : Nat} {st st' : St}
    {outc : Outc}
    (h : operate_file hash op rm src base suffix nd fuel index st = .ok (st', outc))
    (hcf : CsmF hash st.fs st.csm) : CsmF hash st.fs st'.csm := by
  intro e he
  rcases (operate_props h).2.2.2.2.1 e he with he1 | ⟨c', hc', hd', _⟩
  · exact hcf e he1
  · exact ⟨c', hc', hd'⟩

theorem startsW_dest_candPath {destFolder r ext : Str} {i : Nat} :
    startsW (destFolder ++ ['/']) (candPath (destFolder ++ '/' :: r) ext i) = true := by
  have hshape : candPath (destFolder ++ '/' :: r) ext i =
      (destFolder ++ ['/']) ++ (r ++ strIndex i ++ ext) := by
    unfold candPath
    simp [List.append_assoc]
  rw [hshape]
  exact startsW_append_self _ _

theorem noExif_base_eq {destFolder nm : Str} :
    noExifDir destFolder ++ '/' :: nm =
      destFolder ++ '/' :: (NO_EXIF_FOLDER ++ '/' :: nm) := by
  unfold noExifDir
  simp [List.append_assoc]

theorem process_file_csm {hash : Nat → Nat} {exifOf : Nat → Option Str}
    {op : Op} {rm : Bool} {destFolder : Str} {f : SrcFile} {st st' : St}
    {outc : Outc}
    (h : process_file hash exifOf op rm destFolder f st = .ok (st', outc)) :
    CsmLe st.csm st'.csm ∧
    (CsmF hash st.fs st.csm → CsmF hash st.fs st'.csm) ∧
    (NodupKeys st.csm.checksums → NodupKeys st'.csm.checksums) ∧
    (∀ e ∈ st'.csm.checksums, e ∈ st.csm.checksums ∨
      (∃ c', fsLookup st.fs e.1 = some c' ∧ e.2 = hash c' ∧
        (e.1 = f.path ∨ startsW (destFolder ++ ['/']) e.1 = true))) := by
  cases hc : fsLookup st.fs f.path with
  | none =>
    unfold process_file at h
    rw [hc] at h
    cases h
  | some c =>
    cases hb : (exifOf c).bind (parseDatePath destFolder) with
    | some dn =>
      have hdir : ∃ r, dn.1 = destFolder ++ '/' :: r := by
        cases he : exifOf c with
        | none => rw [he] at hb; cases hb
        | some t =>
          rw [he] at hb
          exact parseDatePath_dir hb
      rcases hdir with ⟨r, hr⟩
      rw [process_file_eq_dated hc hb] at h
      have hp := operate_props h
      refine ⟨hp.2.2.1, fun hcf => operate_csmF h hcf, hp.2.2.2.1, ?_⟩
      intro e he
      rcases hp.2.2.2.2.1 e he with he1 | ⟨c', hc', hd', hk⟩
      · exact Or.inl he1
      · refine Or.inr ⟨c', hc', hd', ?_⟩
        rcases hk with hk | ⟨i, _, hk⟩
        · exact Or.inl hk
        · right
          have hbase : dn.1 ++ '/' :: dn.2 =
              destFolder ++ '/' :: (r ++ '/' :: dn.2) := by
            rw [hr]
            simp [List.append_assoc]
          rw [hk, hbase]
          exact startsW_dest_candPath
    | none =>
      rw [process_file_eq_undated hc hb] at h
      cases hu : CheckSumManager.is_unique hash st.fs st.csm f.path with
      | error e => rw [hu] at h; cases h
      | ok bc =>
        rw [hu] at h
        obtain ⟨u, csm1⟩ := bc
        dsimp only at h
        have h01 : CsmLe st.csm csm1 := is_unique_superset hu
        have hcf01 : CsmF hash st.fs st.csm → CsmF hash st.fs csm1 :=
          fun hcf => is_unique_csmF hu hcf
        have hnd01 : NodupKeys st.csm.checksums → NodupKeys csm1.checksums :=
          fun hn => is_unique_nodup hu hn
        have hadd01 : ∀ e ∈ csm1.checksums, e ∈ st.csm.checksums ∨
            (∃ c', fsLookup st.fs e.1 = some c' ∧ e.2 = hash c' ∧
              (e.1 = f.path ∨ startsW (destFolder ++ ['/']) e.1 = true)) := by
          intro e he
          rcases is_unique_additions hu e he with he1 | ⟨hes, c', hc', hd'⟩
          · exact Or.inl he1
          · exact Or.inr ⟨c', hes ▸ hc', hd', Or.inl hes⟩
        cases u with
        | false =>
          rw [if_neg (by decide)] at h
          injection h with h1
          injection h1 with hst hout
          subst hst
          exact ⟨h01, hcf01, hnd01, hadd01⟩
        | true =>
          rw [if_pos rfl] at h
          have hp := operate_props h
          refine ⟨fun e he => hp.2.2.1 e (h01 e he),
            fun hcf => @operate_csmF hash op rm f.path
              (noExifDir destFolder ++ '/' :: (get_next_file_name st.lastNb).2)
              f.ext true (st.fs.length + 1) 0
              (St.mk st.fs csm1 (get_next_file_name st.lastNb).1 st.counts st.errs)
              st' outc h (hcf01 hcf),
            fun hn => hp.2.2.2.1 (hnd01 hn), ?_⟩
          intro e he
          rcases hp.2.2.2.2.1 e he with he1 | ⟨c', hc', hd', hk⟩
          · exact hadd01 e he1
          · refine Or.inr ⟨c', hc', hd', ?_⟩
            rcases hk with hk | ⟨i, _, hk⟩
            · exact Or.inl hk
            · right
              rw [hk, noExif_base_eq]
              exact startsW_dest_candPath

theorem operate_dup_of_witness {hash : Nat → Nat} {op : Op} {rm : Bool}
    {src base suffix : Str} {nd : Bool} {fuel index : Nat} {st : St} {c : Nat}
    {q : Str}
    (hcf : CsmF hash st.fs st.csm)
    (hsrc : fsLookup st.fs src = some c)
    (hq : (q, hash c) ∈ st.csm.checksums) (hqne : q ≠ src)
    (hcand : (fsLookup st.fs (candPath base suffix index)).isSome = true)
    (hfuel : 1 ≤ fuel) :
    ∃ st', operate_file hash op rm src base suffix nd fuel index st =
      .ok (st', .dup) := by
  obtain ⟨f, rfl⟩ : ∃ f, fuel = f + 1 := ⟨fuel - 1, by omega⟩
  rw [operate_file_succ]
  cases hl : fsLookup st.fs (candPath base suffix index) with
  | none => rw [hl] at hcand; cases hcand
  | some cex =>
    dsimp only
    rcases @process_ok_of_mem hash st.fs st.csm _ cex hl with ⟨csm1, hproc⟩
    rw [hproc]
    dsimp only
    rcases @is_unique_ok_of_mem hash st.fs csm1 src c hsrc with ⟨u, csm2, huniq⟩
    rw [huniq]
    dsimp only
    have hu : u = false := is_unique_false_of_witness huniq (process_csmF hproc hcf)
      hsrc (process_superset hproc _ hq) hqne
    subst hu
    rw [if_neg (by decide)]
    exact ⟨_, rfl⟩

theorem operate_dup_of_chain {hash : Nat → Nat} {op : Op} {rm : Bool}
    {src base suffix : Str} {nd : Bool} :
    ∀ {i index fuel : Nat} {st : St} {c : Nat},
      CsmF hash st.fs st.csm →
      fsLookup st.fs src = some c →
      (∀ i', i' ≤ i →
        (fsLookup st.fs (candPath base suffix (index + i'))).isSome = true) →
      (∃ ci, fsLookup st.fs (candPath base suffix (index + i)) = some ci ∧
        hash ci = hash c) →
      (∀ i', candPath base suffix i' ≠ src) →
      i < fuel →
      ∃ st', operate_file hash op rm src base suffix nd fuel index st =
        .ok (st', .dup) := by
  intro i
  induction i with
  | zero =>
    intro index fuel st c hcf hsrc hchain hdig hne hfuel
    obtain ⟨f, rfl⟩ : ∃ f, fuel = f + 1 := ⟨fuel - 1, by omega⟩
    rcases hdig with ⟨ci, hci, hhc⟩
    rw [Nat.add_zero] at hci
    rw [operate_file_succ]
    rw [hci]
    dsimp only
    rcases @process_ok_of_mem hash st.fs st.csm _ ci hci with ⟨csm1, hproc⟩
    rw [hproc]
    dsimp only
    have hwit : (candPath base suffix index, hash c) ∈ csm1.checksums := by
      rcases process_cases hproc with ⟨d, hd, rfl⟩ | ⟨_, cc, hcc, rfl⟩
      · have hdc : d = hash ci := find_digest_of_csmF hcf hd hci
        have := fsLookup_mem hd
        rw [hdc, hhc] at this
        exact this
      · rw [hci] at hcc
        injection hcc with hcc
        subst hcc
        rw [← hhc]
        exact List.mem_cons_self _ _
    rcases @is_unique_ok_of_mem hash st.fs csm1 src c hsrc with ⟨u, csm2, huniq⟩
    rw [huniq]
    dsimp only
    have hu : u = false := is_unique_false_of_witness huniq (process_csmF hproc hcf)
      hsrc hwit (hne index)
    subst hu
    rw [if_neg (by decide)]
    exact ⟨_, rfl⟩
  | succ i ihi =>
    intro index fuel st c hcf hsrc hchain hdig hne hfuel
    obtain ⟨f, rfl⟩ : ∃ f, fuel = f + 1 := ⟨fuel - 1, by omega⟩
    rw [operate_file_succ]
    have hcand0 : (fsLookup st.fs (candPath base suffix index)).isSome = true := by
      have := hchain 0 (by omega)
      rw [Nat.add_zero] at this
      exact this
    cases hl : fsLookup st.fs (candPath base suffix index) with
    | none => rw [hl] at hcand0; cases hcand0
    | some cex =>
      dsimp only
      rcases @process_ok_of_mem hash st.fs st.csm _ cex hl with ⟨csm1, hproc⟩
      rw [hproc]
      dsimp only
      rcases @is_unique_ok_of_mem hash st.fs csm1 src c hsrc with ⟨u, csm2, huniq⟩
      rw [huniq]
      dsimp only
      cases u with
      | false =>
        rw [if_neg (by decide)]
        exact ⟨_, rfl⟩
      | true =>
        rw [if_pos rfl]
        exact @ihi (index + 1) f (St.mk st.fs csm2 st.lastNb st.counts st.errs) c
          (is_unique_csmF huniq (process_csmF hproc hcf)) hsrc
          (by
            intro i' hi'
            have hsh : index + 1 + i' = index + (i' + 1) := by omega
            rw [hsh]
            exact hchain (i' + 1) (by omega))
          (by
            have hsh : index + 1 + i = index + (i + 1) := by omega
            rw [hsh]
            exact hdig)
          hne (by omega)

theorem datedBase_eq_some {exifOf : Nat → Option Str} {destFolder : Str} {c : Nat}
    {dn : Str × Str} (hb : (exifOf c).bind (parseDatePath destFolder) = some dn) :
    datedBase exifOf destFolder c = some (dn.1 ++ '/' :: dn.2) := by
  unfold datedBase
  rw [hb]
  rfl

theorem datedBase_eq_none {exifOf : Nat → Option Str} {destFolder : Str} {c : Nat}
    (hb : (exifOf c).bind (parseDatePath destFolder) = none) :
    datedBase exifOf destFolder c = none := by
  unfold datedBase
  rw [hb]
  rfl

theorem run2_file_dup {hash : Nat → Nat} {exifOf : Nat → Option Str}
    {destFolder : Str} {f : SrcFile} {st : St} {cf : Nat}
    (hcf0 : CsmF hash st.fs st.csm)
    (hcfl : fsLookup st.fs f.path = some cf)
    (hselfF : SelfIdx exifOf destFolder st.fs f cf)
    (hout : srcOutside destFolder f)
    (hdwit :
      (∃ q, q ≠ f.path ∧ (q, hash cf) ∈ st.csm.checksums) ∨
      (∃ b i, datedBase exifOf destFolder cf = some b ∧
        (∀ i', i' ≤ i → (fsLookup st.fs (candPath b f.ext i')).isSome = true) ∧
        (∃ ci, fsLookup st.fs (candPath b f.ext i) = some ci ∧
          hash ci = hash cf))) :
    ∃ st', process_file hash exifOf .cp false destFolder f st = .ok (st', .dup) ∧
      CsmLe st.csm st'.csm ∧ CsmF hash st.fs st'.csm ∧
      (f.path, hash cf) ∈ st'.csm.checksums := by
  cases hb : (exifOf cf).bind (parseDatePath destFolder) with
  | none =>
    rw [process_file_eq_undated hcfl hb]
    rcases hdwit with ⟨q, hqne, hq⟩ | ⟨b, i, hb2, _⟩
    · rcases @is_unique_ok_of_mem hash st.fs st.csm f.path cf hcfl with ⟨u, csm1, hu⟩
      have hfu : u = false := is_unique_false_of_witness hu hcf0 hcfl hq hqne
      subst hfu
      rw [hu]
      dsimp only
      rw [if_neg (by decide)]
      refine ⟨_, rfl, ?_, ?_, ?_⟩
      · exact is_unique_superset hu
      · exact is_unique_csmF hu hcf0
      · exact is_unique_mem_self hu hcf0 hcfl
    · rw [datedBase_eq_none hb] at hb2
      cases hb2
  | some dn =>
    rw [process_file_eq_dated hcfl hb]
    have hbase := datedBase_eq_some hb
    have hdir : ∃ r, dn.1 = destFolder ++ '/' :: r := by
      cases he : exifOf cf with
      | none => rw [he] at hb; cases hb
      | some t =>
        rw [he] at hb
        exact parseDatePath_dir hb
    rcases hdir with ⟨r, hr⟩
    have hb_shape : dn.1 ++ '/' :: dn.2 = destFolder ++ '/' :: (r ++ '/' :: dn.2) := by
      rw [hr]
      simp [List.append_assoc]
    have hne : ∀ i', candPath (dn.1 ++ '/' :: dn.2) f.ext i' ≠ f.path := by
      intro i' heq
      have hs : startsW (destFolder ++ ['/'])
          (candPath (dn.1 ++ '/' :: dn.2) f.ext i') = true := by
        rw [hb_shape]
        exact startsW_dest_candPath
      rw [heq] at hs
      unfold srcOutside at hout
      rw [hout] at hs
      cases hs
    have hcand0 : (fsLookup st.fs
        (candPath (dn.1 ++ '/' :: dn.2) f.ext 0)).isSome = true := by
      unfold SelfIdx at hselfF
      rw [hbase] at hselfF
      exact hselfF
    have hdup : ∃ st', operate_file hash .cp false f.path (dn.1 ++ '/' :: dn.2)
        f.ext false (st.fs.length + 1) 0 st = .ok (st', .dup) := by
      rcases hdwit with ⟨q, hqne, hq⟩ | ⟨b, i, hb2, hchain, hdig⟩
      · exact operate_dup_of_witness hcf0 hcfl hq hqne hcand0 (by omega)
      · rw [hbase] at hb2
        injection hb2 with hb2
        subst hb2
        have hbound : i < st.fs.length := chain_length_bound hchain
        exact operate_dup_of_chain hcf0 hcfl
          (by
            intro i' hi'
            rw [Nat.zero_add]
            exact hchain i' hi')
          (by
            rw [Nat.zero_add]
            exact hdig) hne (by omega)
    rcases hdup with ⟨st', hop⟩
    have hp := operate_props hop
    rcases hp.2.2.2.2.2.2 rfl with ⟨hfs, hcounts, k, csmPre, hk, hchain2, hiu, hleP, _, haddP⟩
    have hcfPre : CsmF hash st.fs csmPre := by
      intro e he
      rcases haddP e he with he1 | ⟨c', hc', hd', _⟩
      · exact hcf0 e he1
      · exact ⟨c', hc', hd'⟩
    refine ⟨st', hop, hp.2.2.1, operate_csmF hop hcf0, ?_⟩
    exact is_unique_mem_self hiu hcfPre hcfl

theorem underDir_noExif_startsW_dest {destFolder p : Str}
    (h : underDir (noExifDir destFolder) p = true) :
    startsW (destFolder ++ ['/']) p = true := by
  unfold underDir at h
  have hsplit : noExifDir destFolder ++ ['/'] =
      (destFolder ++ ['/']) ++ (NO_EXIF_FOLDER ++ ['/']) := by
    unfold noExifDir
    simp [List.append_assoc]
  rw [hsplit] at h
  exact startsW_append_elim h

theorem run2_all_dup {hash : Nat → Nat} {exifOf : Nat → Option Str}
    {destFolder : Str} {allFiles : List SrcFile}
    (hnodup : (allFiles.map SrcFile.path).Nodup)
    (hout : ∀ f ∈ allFiles, srcOutside destFolder f) :
    ∀ (rest P : List SrcFile) (st : St),
      allFiles = P ++ rest →
      CsmF hash st.fs st.csm →
      (∀ p cp, underDir (noExifDir destFolder) p = true →
        fsLookup st.fs p = some cp → (p, hash cp) ∈ st.csm.checksums) →
      (∀ g ∈ P, eligible g = true →
        ∃ cg, fsLookup st.fs g.path = some cg ∧
          (g.path, hash cg) ∈ st.csm.checksums) →
      (∀ R1 f R2, rest = R1 ++ f :: R2 → eligible f = true →
        ∃ cf, fsLookup st.fs f.path = some cf ∧
          SelfIdx exifOf destFolder st.fs f cf ∧
          DupWit hash exifOf destFolder st.fs (P ++ R1) f cf) →
      (browseList hash exifOf .cp false destFolder rest st).fs = st.fs ∧
      (browseList hash exifOf .cp false destFolder rest st).counts.total_collected
        = st.counts.total_collected ∧
      (browseList hash exifOf .cp false destFolder rest st).counts.no_date_collected
        = st.counts.no_date_collected ∧
      (browseList hash exifOf .cp false destFolder rest st).counts.duplicate
        = st.counts.duplicate + (rest.filter eligible).length ∧
      (browseList hash exifOf .cp false destFolder rest st).errs = st.errs := by
  intro rest
  induction rest with
  | nil =>
    intro P st _ _ _ _ _
    exact ⟨rfl, rfl, rfl, by simp [browseList], rfl⟩
  | cons f R ih =>
    intro P st hsplit hcsmF hseed hself hwits
    have hfmem : f ∈ allFiles := by
      rw [hsplit]
      exact List.mem_append_right P (List.mem_cons_self f R)
    have houtf : srcOutside destFolder f := hout f hfmem
    rw [browseList_cons]
    by_cases he : eligible f = true
    · rw [if_pos he]
      rcases hwits [] f R rfl he with ⟨cf, hcf, hselfF, hdw⟩
      rw [List.append_nil] at hdw
      have hdwit :
          (∃ q, q ≠ f.path ∧ (q, hash cf) ∈ st.csm.checksums) ∨
          (∃ b i, datedBase exifOf destFolder cf = some b ∧
            (∀ i', i' ≤ i → (fsLookup st.fs (candPath b f.ext i')).isSome = true) ∧
            (∃ ci, fsLookup st.fs (candPath b f.ext i) = some ci ∧
              hash ci = hash cf)) := by
        rcases hdw with ⟨p, cp, hund, hlk, hh⟩ | ⟨g, hgP, hge, cg, hglk, hgh⟩ | hchain
        · left
          refine ⟨p, ?_, ?_⟩
          · intro heq
            have hs := underDir_noExif_startsW_dest hund
            rw [heq] at hs
            unfold srcOutside at houtf
            rw [houtf] at hs
            cases hs
          · rw [← hh]
            exact hseed p cp hund hlk
        · left
          rcases hself g hgP hge with ⟨cg', hglk', hgmem⟩
          have hcg : cg' = cg := by
            rw [hglk] at hglk'
            exact (Option.some_inj.mp hglk').symm
          refine ⟨g.path, ?_, ?_⟩
          · intro heq
            have hn := hnodup
            rw [hsplit, List.map_append, List.map_cons] at hn
            rcases List.nodup_append.mp hn with ⟨_, _, hdisj⟩
            exact hdisj (heq ▸ List.mem_map_of_mem SrcFile.path hgP)
              (List.mem_cons_self f.path _)
          · rw [← hgh, ← hcg]
            exact hgmem
        · right
          exact hchain
      rcases run2_file_dup hcsmF hcf hselfF houtf hdwit with
        ⟨st1, hpf, hle, hcsmF1, hmem⟩
      have hstep : browseStep hash exifOf .cp false destFolder f st =
          St.mk st1.fs st1.csm st1.lastNb st1.counts.addProcessed st1.errs := by
        unfold browseStep
        rw [hpf]
      rw [hstep]
      have hfs1 : st1.fs = st.fs := (process_file_cp_fs hpf).2.1 rfl
      have hsh := process_file_shape hpf
      have hcnt := hsh.2.2.1 rfl
      have ihc := ih (P ++ [f])
        (St.mk st1.fs st1.csm st1.lastNb st1.counts.addProcessed st1.errs)
        (by rw [hsplit]; simp)
        (by
          show CsmF hash st1.fs st1.csm
          rw [hfs1]
          exact hcsmF1)
        (by
          intro p cp hund hlk
          show (p, hash cp) ∈ st1.csm.checksums
          rw [hfs1] at hlk
          exact hle _ (hseed p cp hund hlk))
        (by
          intro g hg hge
          rcases List.mem_append.mp hg with hg1 | hg2
          · rcases hself g hg1 hge with ⟨cg, hglk, hgm⟩
            exact ⟨cg, by rw [hfs1]; exact hglk, hle _ hgm⟩
          · have hgf : g = f := List.mem_singleton.mp hg2
            subst hgf
            exact ⟨cf, by rw [hfs1]; exact hcf, hmem⟩)
        (by
          intro R1 f' R2 hR he'
          rcases hwits (f :: R1) f' R2 (by rw [hR]; rfl) he' with ⟨cf', h1, h2, h3⟩
          refine ⟨cf', by rw [hfs1]; exact h1, ?_, ?_⟩
          · show SelfIdx exifOf destFolder st1.fs f' cf'
            rw [hfs1]
            exact h2
          · show DupWit hash exifOf destFolder st1.fs ((P ++ [f]) ++ R1) f' cf'
            rw [hfs1]
            have hPP : P ++ f :: R1 = (P ++ [f]) ++ R1 := by simp
            rw [← hPP]
            exact h3)
      refine ⟨?_, ?_, ?_, ?_, ?_⟩
      · rw [ihc.1]
        exact hfs1
      · rw [ihc.2.1]
        show st1.counts.total_collected = st.counts.total_collected
        exact hcnt.2.1
      · rw [ihc.2.2.1]
        show st1.counts.no_date_collected = st.counts.no_date_collected
        exact hcnt.2.2.1
      · rw [ihc.2.2.2.1]
        show st1.counts.duplicate + (R.filter eligible).length = _
        rw [hcnt.1, List.filter_cons_of_pos he, List.length_cons]
        omega
      · rw [ihc.2.2.2.2]
        show st1.errs = st.errs
        exact hsh.1
    · rw [if_neg he]
      have ihc := ih (P ++ [f]) st (by rw [hsplit]; simp) hcsmF hseed
        (by
          intro g hg hge
          rcases List.mem_append.mp hg with hg1 | hg2
          · exact hself g hg1 hge
          · have hgf : g = f := List.mem_singleton.mp hg2
            subst hgf
            exact absurd hge he)
        (by
          intro R1 f' R2 hR he'
          rcases hwits (f :: R1) f' R2 (by rw [hR]; rfl) he' with ⟨cf', h1, h2, h3⟩
          refine ⟨cf', h1, h2, ?_⟩
          have hPP : P ++ f :: R1 = (P ++ [f]) ++ R1 := by simp
          rw [← hPP]
          exact h3)
      refine ⟨ihc.1, ihc.2.1, ihc.2.2.1, ?_, ihc.2.2.2.2⟩
      rw [ihc.2.2.2.1, List.filter_cons_of_neg (by simpa using he)]

theorem split_concat {α : Type} {P1 P : List α} {g b : α} {P2 : List α}
    (h : P1 ++ g :: P2 = P ++ [b]) :
    (P2 = [] ∧ g = b ∧ P1 = P) ∨ ∃ P2', P2 = P2' ++ [b] ∧ P = P1 ++ g :: P2' := by
  rcases List.eq_nil_or_concat P2 with rfl | ⟨P2', b', rfl⟩
  · left
    rcases List.append_inj' h rfl with ⟨hP, hg⟩
    injection hg with hg _
    exact ⟨rfl, hg, hP⟩
  · right
    rw [List.concat_eq_append] at h ⊢
    have hsh : P1 ++ g :: (P2' ++ [b']) = (P1 ++ g :: P2') ++ [b'] := by simp
    rw [hsh] at h
    rcases List.append_inj' h rfl with ⟨hP, hb⟩
    injection hb with hb _
    subst hb
    exact ⟨P2', rfl, hP.symm⟩

theorem dupwit_of_entry {hash : Nat → Nat} {exifOf : Nat → Option Str}
    {destFolder : Str} {fs0 FS : List (Str × Nat)} {P : List SrcFile}
    {csm : CheckSumManager} {f : SrcFile} {c0 : Nat} {q : Str}
    (hcsmF : CsmF hash FS csm)
    (hec : ∀ e ∈ csm.checksums, EntryClass hash destFolder fs0 FS P e.1 e.2)
    (hproZ : ∀ cq qq, fsLookup fs0 qq = some cq →
      startsW (destFolder ++ ['/']) qq = true →
      underDir (noExifDir destFolder) qq = false → hash cq ≠ hash c0)
    (hq : (q, hash c0) ∈ csm.checksums) :
    DupWit hash exifOf destFolder FS P f c0 := by
  rcases hec _ hq with hund | ⟨g, hgP, hge, cg, hlk, hdq⟩ | ⟨cq, hlk0, hdq, hsw, hnu⟩
  · rcases hcsmF _ hq with ⟨cq, hlkq, hdq⟩
    exact Or.inl ⟨q, cq, hund, hlkq, hdq.symm⟩
  · exact Or.inr (Or.inl ⟨g, hgP, hge, cg, hlk, hdq.symm⟩)
  · exact absurd hdq.symm (hproZ cq q hlk0 hsw hnu)

theorem run1_file_wits {hash : Nat → Nat} {exifOf : Nat → Option Str}
    {destFolder : Str} {fs0 : List (Str × Nat)} {P : List SrcFile}
    {f : SrcFile} {st st1 : St} {outc : Outc} {c0 : Nat}
    (hpf : process_file hash exifOf .cp false destFolder f st = .ok (st1, outc))
    (hcf : fsLookup st.fs f.path = some c0)
    (hcsmF : CsmF hash st.fs st.csm)
    (hnk : NodupKeys st.csm.checksums)
    (hec : ∀ e ∈ st.csm.checksums, EntryClass hash destFolder fs0 st.fs P e.1 e.2)
    (hproZ : ∀ cq qq, fsLookup fs0 qq = some cq →
      startsW (destFolder ++ ['/']) qq = true →
      underDir (noExifDir destFolder) qq = false → hash cq ≠ hash c0) :
    fsLookup st1.fs f.path = some c0 ∧
    SelfIdx exifOf destFolder st1.fs f c0 ∧
    DupWit hash exifOf destFolder st1.fs P f c0 := by
  have hle1 : FsLe st.fs st1.fs := (process_file_cp_fs hpf).1
  have hcf1 : fsLookup st1.fs f.path = some c0 := hle1 _ _ hcf
  cases hb : (exifOf c0).bind (parseDatePath destFolder) with
  | none =>
    have hself : SelfIdx exifOf destFolder st1.fs f c0 := by
      unfold SelfIdx
      rw [datedBase_eq_none hb]
      trivial
    refine ⟨hcf1, hself, ?_⟩
    rw [process_file_eq_undated hcf hb] at hpf
    cases hu : CheckSumManager.is_unique hash st.fs st.csm f.path with
    | error e =>
      rw [hu] at hpf
      cases hpf
    | ok bc =>
      obtain ⟨u, csm1⟩ := bc
      rw [hu] at hpf
      dsimp only at hpf
      cases u with
      | false =>
        rw [if_neg (by decide)] at hpf
        injection hpf with hpair
        injection hpair with hst houtc
        rcases is_unique_false_elim hu hnk with ⟨q, d, hqne, hqm, hfind⟩
        have hcsm1F : CsmF hash st.fs csm1 := is_unique_csmF hu hcsmF
        have hd : d = hash c0 := find_digest_of_csmF hcsm1F hfind hcf
        subst hd
        rcases is_unique_additions hu _ hqm with hq0 | ⟨hq1, _⟩
        · exact dupWit_mono hle1 (dupwit_of_entry hcsmF hec hproZ hq0)
        · exact absurd hq1 hqne
      | true =>
        rw [if_pos rfl] at hpf
        have hprops := operate_props hpf
        cases outc with
        | transferred qq =>
          rcases hprops.2.2.2.2.2.1 qq rfl with
            ⟨k, c, _, hqq, hchain, hfree, hsrc, hfs1, _⟩
          dsimp only at hsrc hfs1
          have hc : c0 = c := by
            rw [hcf] at hsrc
            exact Option.some_inj.mp hsrc
          subst hc
          have hunder : underDir (noExifDir destFolder) qq = true := by
            rw [hqq]
            show startsW (noExifDir destFolder ++ ['/']) _ = true
            exact startsW_dest_candPath
          have hlkq : fsLookup st1.fs qq = some c0 := by
            rw [hfs1]
            simp [fsLookup]
          exact Or.inl ⟨qq, c0, hunder, hlkq, rfl⟩
        | dup =>
          rcases hprops.2.2.2.2.2.2 rfl with
            ⟨hfs1, _, k, csmPre, _, hchainOcc, hiu, hleP, hndP, haddP⟩
          dsimp only at hfs1 hchainOcc hiu hndP haddP
          have hcsm1F : CsmF hash st.fs csm1 := is_unique_csmF hu hcsmF
          have hcsmPreF : CsmF hash st.fs csmPre := by
            intro e he
            rcases haddP e he with he0 | ⟨c', hc', hd', _⟩
            · exact hcsm1F e he0
            · exact ⟨c', hc', hd'⟩
          rcases is_unique_false_elim hiu (hndP (is_unique_nodup hu hnk)) with
            ⟨q, d, hqne, hqm, hfind⟩
          have hcsmF' : CsmF hash st.fs st1.csm := is_unique_csmF hiu hcsmPreF
          have hd : d = hash c0 := find_digest_of_csmF hcsmF' hfind hcf
          subst hd
          rcases is_unique_additions hiu _ hqm with hqPre | ⟨hq1, _⟩
          · rcases haddP _ hqPre with hqCsm1 | ⟨c', hlc', hdc', hcase⟩
            · rcases is_unique_additions hu _ hqCsm1 with hq0 | ⟨hq1, _⟩
              · exact dupWit_mono hle1 (dupwit_of_entry hcsmF hec hproZ hq0)
              · exact absurd hq1 hqne
            · rcases hcase with hq1 | ⟨i, _, _, hqc⟩
              · exact absurd hq1 hqne
              · dsimp only at hqc
                have hunder : underDir (noExifDir destFolder) q = true := by
                  rw [hqc]
                  show startsW (noExifDir destFolder ++ ['/']) _ = true
                  exact startsW_dest_candPath
                exact Or.inl ⟨q, c', hunder, hle1 _ _ hlc', hdc'.symm⟩
          · exact absurd hq1 hqne
  | some dn =>
    have hbase := datedBase_eq_some hb
    rw [process_file_eq_dated hcf hb] at hpf
    have hprops := operate_props hpf
    cases outc with
    | transferred qq =>
      rcases hprops.2.2.2.2.2.1 qq rfl with
        ⟨k, c, _, hqq, hchain, hfree, hsrc, hfs1, _⟩
      have hc : c0 = c := by
        rw [hcf] at hsrc
        exact Option.some_inj.mp hsrc
      subst hc
      have hlkq : fsLookup st1.fs qq = some c0 := by
        rw [hfs1]
        simp [fsLookup]
      have hself : SelfIdx exifOf destFolder st1.fs f c0 := by
        unfold SelfIdx
        rw [hbase]
        dsimp only
        rcases Nat.eq_zero_or_pos k with hk0 | hkpos
        · rw [hk0] at hqq
          rw [← hqq, hlkq]
          rfl
        · exact fsLe_isSome hle1 (hchain 0 (Nat.zero_le _) hkpos)
      refine ⟨hcf1, hself, Or.inr (Or.inr ?_)⟩
      refine ⟨dn.1 ++ '/' :: dn.2, k, hbase, ?_, c0, ?_, rfl⟩
      · intro i' hi'
        rcases Nat.lt_or_ge i' k with hlt | hge
        · exact fsLe_isSome hle1 (hchain i' (Nat.zero_le _) hlt)
        · have hik : i' = k := by omega
          subst hik
          rw [← hqq, hlkq]
          rfl
      · rw [← hqq]
        exact hlkq
    | dup =>
      rcases hprops.2.2.2.2.2.2 rfl with
        ⟨hfs1, _, k, csmPre, _, hchainOcc, hiu, hleP, hndP, haddP⟩
      have hfs1' : st1.fs = st.fs := by simpa using hfs1
      have hself : SelfIdx exifOf destFolder st1.fs f c0 := by
        unfold SelfIdx
        rw [hbase, hfs1']
        exact hchainOcc 0 (Nat.zero_le _) (Nat.zero_le _)
      refine ⟨hcf1, hself, ?_⟩
      have hcsmPreF : CsmF hash st.fs csmPre := by
        intro e he
        rcases haddP e he with he0 | ⟨c', hc', hd', _⟩
        · exact hcsmF e he0
        · exact ⟨c', hc', hd'⟩
      rcases is_unique_false_elim hiu (hndP hnk) with ⟨q, d, hqne, hqm, hfind⟩
      have hcsmF' : CsmF hash st.fs st1.csm := is_unique_csmF hiu hcsmPreF
      have hd : d = hash c0 := find_digest_of_csmF hcsmF' hfind hcf
      subst hd
      rcases is_unique_additions hiu _ hqm with hqPre | ⟨hq1, _⟩
      · rcases haddP _ hqPre with hq0 | ⟨c', hlc', hdc', hcase⟩
        · exact dupWit_mono hle1 (dupwit_of_entry hcsmF hec hproZ hq0)
        · rcases hcase with hq1 | ⟨i, _, hik, hqc⟩
          · exact absurd hq1 hqne
          · refine Or.inr (Or.inr ⟨dn.1 ++ '/' :: dn.2, i, hbase, ?_, c', ?_, hdc'.symm⟩)
            · intro i' hi'
              rw [hfs1']
              exact hchainOcc i' (Nat.zero_le _) (le_trans hi' hik)
            · rw [hfs1', ← hqc]
              exact hlc'
      · exact absurd hq1 hqne

theorem run1_invariant {hash : Nat → Nat} {exifOf : Nat → Option Str}
    {destFolder : Str} {fs0 : List (Str × Nat)} {allFiles : List SrcFile}
    (hread : ∀ f ∈ allFiles, eligible f = true →
      ∃ c, fsLookup fs0 f.path = some c)
    (hproviso : ∀ cq qq, fsLookup fs0 qq = some cq →
      startsW (destFolder ++ ['/']) qq = true →
      underDir (noExifDir destFolder) qq = false →
      ∀ f ∈ allFiles, eligible f = true →
      ∀ c, fsLookup fs0 f.path = some c → hash cq ≠ hash c) :
    ∀ (rest P : List SrcFile) (st : St),
      allFiles = P ++ rest →
      FsLe fs0 st.fs →
      CsmF hash st.fs st.csm →
      NodupKeys st.csm.checksums →
      (∀ e ∈ st.csm.checksums, EntryClass hash destFolder fs0 st.fs P e.1 e.2) →
      FileClass fs0 st.fs P →
      (∀ P1 g P2, P = P1 ++ g :: P2 → eligible g = true →
        ∃ cg, fsLookup st.fs g.path = some cg ∧
          SelfIdx exifOf destFolder st.fs g cg ∧
          DupWit hash exifOf destFolder st.fs P1 g cg) →
      FsLe fs0 (browseList hash exifOf .cp false destFolder rest st).fs ∧
      (∀ P1 g P2, allFiles = P1 ++ g :: P2 → eligible g = true →
        ∃ cg, fsLookup (browseList hash exifOf .cp false destFolder rest st).fs
            g.path = some cg ∧
          SelfIdx exifOf destFolder
            (browseList hash exifOf .cp false destFolder rest st).fs g cg ∧
          DupWit hash exifOf destFolder
            (browseList hash exifOf .cp false destFolder rest st).fs P1 g cg) := by
  intro rest
  induction rest with
  | nil =>
    intro P st hsplit hfsle hcsmF hnk hec hfc hwits
    rw [List.append_nil] at hsplit
    subst hsplit
    exact ⟨hfsle, fun P1 g P2 hsp hge => hwits P1 g P2 hsp hge⟩
  | cons f R ih =>
    intro P st hsplit hfsle hcsmF hnk hec hfc hwits
    rw [browseList_cons]
    by_cases he : eligible f = true
    · rw [if_pos he]
      have hfmem : f ∈ allFiles := by
        rw [hsplit]
        exact List.mem_append_right P (List.mem_cons_self f R)
      rcases hread f hfmem he with ⟨c0, hc0⟩
      have hcf : fsLookup st.fs f.path = some c0 := hfsle _ _ hc0
      rcases process_file_total hcf with ⟨st1, outc, hpf⟩
      have hproZ : ∀ cq qq, fsLookup fs0 qq = some cq →
          startsW (destFolder ++ ['/']) qq = true →
          underDir (noExifDir destFolder) qq = false → hash cq ≠ hash c0 :=
        fun cq qq h1 h2 h3 => hproviso cq qq h1 h2 h3 f hfmem he c0 hc0
      have hwf := run1_file_wits hpf hcf hcsmF hnk hec hproZ
      have hle1 : FsLe st.fs st1.fs := (process_file_cp_fs hpf).1
      have hpcsm := process_file_csm hpf
      have hstep : browseStep hash exifOf .cp false destFolder f st =
          St.mk st1.fs st1.csm st1.lastNb st1.counts.addProcessed st1.errs := by
        unfold browseStep
        rw [hpf]
      rw [hstep]
      have hec1 : ∀ e ∈ st1.csm.checksums,
          EntryClass hash destFolder fs0 st1.fs (P ++ [f]) e.1 e.2 := by
        intro e hein
        rcases hpcsm.2.2.2 e hein with he0 | ⟨c', hlc', hdc', hcase⟩
        · exact entryClass_widen (fun g hg => List.mem_append_left _ hg)
            (entryClass_mono hle1 (hec e he0))
        · rcases hcase with hq1 | hsw
          · refine Or.inr (Or.inl ⟨f, List.mem_append_right _ (by simp), he, c',
              ?_, hdc'⟩)
            rw [← hq1]
            exact hle1 _ _ hlc'
          · by_cases hun : underDir (noExifDir destFolder) e.1 = true
            · exact Or.inl hun
            · rcases hfc e.1 c' hlc' with hA | ⟨g, hgP, hge, cg, hglk, hcg⟩
              · exact Or.inr (Or.inr ⟨c', hA, hdc', hsw, by simpa using hun⟩)
              · exact Or.inr (Or.inl ⟨g, List.mem_append_left _ hgP, hge, cg,
                  hle1 _ _ hglk, hdc'.trans (congrArg hash hcg)⟩)
      have hfc1 : FileClass fs0 st1.fs (P ++ [f]) := by
        cases outc with
        | dup =>
          have hfs1 := (process_file_cp_fs hpf).2.1 rfl
          intro p cp hlk
          rw [hfs1] at hlk
          rcases hfc p cp hlk with hA | ⟨g, hgP, hge, cg, hglk, hcg⟩
          · exact Or.inl hA
          · exact Or.inr ⟨g, List.mem_append_left _ hgP, hge, cg,
              by rw [hfs1]; exact hglk, hcg⟩
        | transferred q =>
          rcases (process_file_cp_fs hpf).2.2 q rfl with ⟨c, hqfree, hflk, hfs1⟩
          intro p cp hlk
          rw [hfs1] at hlk
          by_cases hpq : q = p
          · subst hpq
            have hself : fsLookup ((q, c) :: st.fs) q = some c := by
              simp [fsLookup]
            rw [hself] at hlk
            refine Or.inr ⟨f, List.mem_append_right _ (by simp), he, c,
              hle1 _ _ hflk, (Option.some_inj.mp hlk).symm⟩
          · rw [fsLookup_cons_of_ne hpq] at hlk
            rcases hfc p cp hlk with hA | ⟨g, hgP, hge, cg, hglk, hcg⟩
            · exact Or.inl hA
            · exact Or.inr ⟨g, List.mem_append_left _ hgP, hge, cg,
                hle1 _ _ hglk, hcg⟩
      have hwits1 : ∀ P1 g P2, P ++ [f] = P1 ++ g :: P2 → eligible g = true →
          ∃ cg, fsLookup st1.fs g.path = some cg ∧
            SelfIdx exifOf destFolder st1.fs g cg ∧
            DupWit hash exifOf destFolder st1.fs P1 g cg := by
        intro P1 g P2 hsp hge
        rcases split_concat hsp.symm with ⟨hP2, hgf, hP1⟩ | ⟨P2', hP2, hPsplit⟩
        · subst hgf
          subst hP1
          exact ⟨c0, hwf.1, hwf.2.1, hwf.2.2⟩
        · rcases hwits P1 g P2' hPsplit hge with ⟨cg, h1, h2, h3⟩
          exact ⟨cg, hle1 _ _ h1, selfIdx_mono hle1 h2, dupWit_mono hle1 h3⟩
      exact ih (P ++ [f])
        (St.mk st1.fs st1.csm st1.lastNb st1.counts.addProcessed st1.errs)
        (by rw [hsplit]; simp)
        (fsLe_trans hfsle hle1)
        (csmF_of_fsLe hle1 (hpcsm.2.1 hcsmF))
        (hpcsm.2.2.1 hnk)
        hec1 hfc1 hwits1
    · rw [if_neg he]
      have hwits1 : ∀ P1 g P2, P ++ [f] = P1 ++ g :: P2 → eligible g = true →
          ∃ cg, fsLookup st.fs g.path = some cg ∧
            SelfIdx exifOf destFolder st.fs g cg ∧
            DupWit hash exifOf destFolder st.fs P1 g cg := by
        intro P1 g P2 hsp hge
        rcases split_concat hsp.symm with ⟨hP2, hgf, hP1⟩ | ⟨P2', hP2, hPsplit⟩
        · subst hgf
          exact absurd hge he
        · exact hwits P1 g P2' hPsplit hge
      exact ih (P ++ [f]) st (by rw [hsplit]; simp) hfsle hcsmF hnk
        (fun e hein => entryClass_widen (fun g hg => List.mem_append_left _ hg)
          (hec e hein))
        (fun p cp hlk => by
          rcases hfc p cp hlk with hA | ⟨g, hgP, hge, cg, hglk, hcg⟩
          · exact Or.inl hA
          · exact Or.inr ⟨g, List.mem_append_left _ hgP, hge, cg, hglk, hcg⟩)
        hwits1

theorem seeded_init_props {hash : Nat → Nat} {fs : List (Str × Nat)} {dest : Str}
    {nb : Nat} {csm : CheckSumManager}
    (h : noExifInit hash fs dest (CheckSumManager.mk []) = .ok (nb, csm)) :
    CsmF hash fs csm ∧ NodupKeys csm.checksums ∧
    (∀ e ∈ csm.checksums, underDir (noExifDir dest) e.1 = true) ∧
    (∀ p cp, underDir (noExifDir dest) p = true → fsLookup fs p = some cp →
      (p, hash cp) ∈ csm.checksums) := by
  have hgo := noExifInit_ok_elim h
  have hprops := noExifGo_props hgo
  have hcsmF0 : CsmF hash fs (CheckSumManager.mk []) := by
    intro e he
    cases he
  have hnk0 : NodupKeys (CheckSumManager.mk [] : CheckSumManager).checksums := by
    simp [NodupKeys]
  refine ⟨hprops.2.1 hcsmF0, hprops.2.2.1 hnk0, ?_, ?_⟩
  · intro e he
    rcases hprops.2.2.2.2 e he with he0 | ⟨c, hc, hd, hk⟩
    · cases he0
    · have hk' : ∃ x, (e.1, x) ∈ filesUnder fs (noExifDir dest) := by
        simpa [keysOf] using hk
      rcases hk' with ⟨x, hen⟩
      exact (mem_filesUnder.mp hen).2
  · intro p cp hund hlk
    have hmem : (p, cp) ∈ filesUnder fs (noExifDir dest) :=
      mem_filesUnder.mpr ⟨fsLookup_mem hlk, hund⟩
    rcases noExifGo_indexes hgo hcsmF0 _ hmem with ⟨c, hc, hfind⟩
    dsimp only at hc hfind
    rw [hlk] at hc
    have hcp : cp = c := Option.some_inj.mp hc
    rw [hcp]
    exact fsLookup_mem hfind

/-- Claim C5, amended: in copy mode without duplicate removal, if the
source paths lie outside the destination tree, are pairwise distinct and
readable, and no pre-existing destination file outside the undated folder
shares a content digest with any source file, then a second run of the
tool over the same sources and destination collects zero new files (dated
or undated), classifies every eligible file as a duplicate, and leaves
the destination tree unchanged. -/
theorem claim_C5 {hash : Nat → Nat} {exifOf : Nat → Option Str}
    {destFolder : Str} {files : List SrcFile} {fs0 : List (Str × Nat)}
    {st1 st2 : St}
    (hnodup : (files.map SrcFile.path).Nodup)
    (hout : ∀ f ∈ files, srcOutside destFolder f)
    (hread : ∀ f ∈ files, eligible f = true → ∃ c, fsLookup fs0 f.path = some c)
    (hproviso : ∀ cq qq, fsLookup fs0 qq = some cq →
      startsW (destFolder ++ ['/']) qq = true →
      underDir (noExifDir destFolder) qq = false →
      ∀ f ∈ files, eligible f = true →
      ∀ c, fsLookup fs0 f.path = some c → hash cq ≠ hash c)
    (hrun1 : browse_sources hash exifOf .cp false destFolder files fs0 = .ok st1)
    (hrun2 : browse_sources hash exifOf .cp false destFolder files st1.fs = .ok st2) :
    st2.fs = st1.fs ∧ st2.counts.total_collected = 0 ∧
    st2.counts.no_date_collected = 0 ∧
    st2.counts.duplicate = (files.filter eligible).length ∧ st2.errs = [] := by
  unfold browse_sources at hrun1
  cases hseed1 : noExifInit hash fs0 destFolder (CheckSumManager.mk []) with
  | error e =>
    rw [hseed1] at hrun1
    cases hrun1
  | ok seeded =>
    obtain ⟨nb1, csm1⟩ := seeded
    rw [hseed1] at hrun1
    dsimp only at hrun1
    injection hrun1 with hst1
    have hinit := seeded_init_props hseed1
    have hrun1' := @run1_invariant hash exifOf destFolder fs0 files hread hproviso files []
      (St.mk fs0 csm1 nb1 (Counts.mk 0 0 0 0) [])
      (by simp) (fsLe_refl _) hinit.1 hinit.2.1
      (fun e he => Or.inl (hinit.2.2.1 e he))
      (fun p cp hlk => Or.inl hlk)
      (by
        intro P1 g P2 hsp hge
        rcases P1 with _ | ⟨x, xs⟩ <;> cases hsp)
    rw [hst1] at hrun1'
    unfold browse_sources at hrun2
    cases hseed2 : noExifInit hash st1.fs destFolder (CheckSumManager.mk []) with
    | error e =>
      rw [hseed2] at hrun2
      cases hrun2
    | ok seeded2 =>
      obtain ⟨nb2, csm2⟩ := seeded2
      rw [hseed2] at hrun2
      dsimp only at hrun2
      injection hrun2 with hst2
      have hinit2 := seeded_init_props hseed2
      have h2 := run2_all_dup hnodup hout files []
        (St.mk st1.fs csm2 nb2 (Counts.mk 0 0 0 0) [])
        (by simp)
        hinit2.1
        (fun p cp hund hlk => hinit2.2.2.2 p cp hund hlk)
        (fun g hg => absurd hg (List.not_mem_nil g))
        (by
          intro R1 f R2 hR he
          rcases hrun1'.2 R1 f R2 hR he with ⟨cf, h1, h2, h3⟩
          exact ⟨cf, h1, h2, h3⟩)
      rw [hst2] at h2
      refine ⟨h2.1, h2.2.1, h2.2.2.1, ?_, h2.2.2.2.2⟩
      have := h2.2.2.2.1
      simpa using this

/-- Claim C5 as stated is false of the code: when a pre-existing dated
destination file happens to share its content with a source file, the
first run classifies that source as a duplicate against it, but the
second run's collision probing stops at an earlier candidate and never
re-indexes the witnessing file, so the source is collected again: on
this input the second run collects one file and changes the destination
tree. -/
theorem claim_C5_counterexample :
    ∃ st1 st2,
      browse_sources (fun c => c)
        (fun c => if c = 20 then some "2020:01:01 00:00:00".data
          else if c = 30 then some "2021:02:02 00:00:00".data else none)
        .cp false "dest".data
        [SrcFile.mk "s/g.jpeg".data ".jpeg".data,
         SrcFile.mk "s/f.jpg".data ".jpg".data,
         SrcFile.mk "s/b.jpg".data ".jpg".data]
        [("s/g.jpeg".data, 20), ("s/f.jpg".data, 20), ("s/b.jpg".data, 30),
         ("dest/2020-01/2020-01-01_00-00-00.jpg".data, 10),
         ("dest/2020-01/2020-01-01_00-00-00_1.jpg".data, 30),
         ("dest/2021-02/2021-02-02_00-00-00.jpg".data, 40)] = .ok st1 ∧
      browse_sources (fun c => c)
        (fun c => if c = 20 then some "2020:01:01 00:00:00".data
          else if c = 30 then some "2021:02:02 00:00:00".data else none)
        .cp false "dest".data
        [SrcFile.mk "s/g.jpeg".data ".jpeg".data,
         SrcFile.mk "s/f.jpg".data ".jpg".data,
         SrcFile.mk "s/b.jpg".data ".jpg".data]
        st1.fs = .ok st2 ∧
      st2.counts.total_collected = 1 ∧ st2.fs ≠ st1.fs := by
  refine ⟨St.mk
      [("dest/2020-01/2020-01-01_00-00-00_2.jpg".data, 20),
       ("dest/2020-01/2020-01-01_00-00-00.jpeg".data, 20),
       ("s/g.jpeg".data, 20), ("s/f.jpg".data, 20), ("s/b.jpg".data, 30),
       ("dest/2020-01/2020-01-01_00-00-00.jpg".data, 10),
       ("dest/2020-01/2020-01-01_00-00-00_1.jpg".data, 30),
       ("dest/2021-02/2021-02-02_00-00-00.jpg".data, 40)]
      (CheckSumManager.mk
        [("s/b.jpg".data, 30),
         ("dest/2021-02/2021-02-02_00-00-00.jpg".data, 40),
         ("dest/2020-01/2020-01-01_00-00-00_1.jpg".data, 30),
         ("s/f.jpg".data, 20),
         ("dest/2020-01/2020-01-01_00-00-00.jpg".data, 10)])
      0 (Counts.mk 3 0 2 1) [],
    St.mk
      [("dest/2021-02/2021-02-02_00-00-00_1.jpg".data, 30),
       ("dest/2020-01/2020-01-01_00-00-00_2.jpg".data, 20),
       ("dest/2020-01/2020-01-01_00-00-00.jpeg".data, 20),
       ("s/g.jpeg".data, 20), ("s/f.jpg".data, 20), ("s/b.jpg".data, 30),
       ("dest/2020-01/2020-01-01_00-00-00.jpg".data, 10),
       ("dest/2020-01/2020-01-01_00-00-00_1.jpg".data, 30),
       ("dest/2021-02/2021-02-02_00-00-00.jpg".data, 40)]
      (CheckSumManager.mk
        [("s/b.jpg".data, 30),
         ("dest/2021-02/2021-02-02_00-00-00.jpg".data, 40),
         ("s/f.jpg".data, 20),
         ("dest/2020-01/2020-01-01_00-00-00.jpg".data, 10),
         ("s/g.jpeg".data, 20),
         ("dest/2020-01/2020-01-01_00-00-00.jpeg".data, 20)])
      0 (Counts.mk 3 0 1 2) [],
    by rfl, by rfl, by rfl, by decide⟩

/-- Witness for claim C5: a single dated source outside the destination
tree, with an initially source-only file system; the first run places the
photo, and the amended theorem applies: the second run changes nothing
and reports the one eligible file as a duplicate. -/
theorem claim_C5_witness :
    (browse_sources (fun c => c)
        (fun c => if c = 20 then some "2020:01:01 00:00:00".data else none)
        .cp false "dest".data [SrcFile.mk "s/a.jpg".data ".jpg".data]
        [("s/a.jpg".data, 20)] =
      .ok (St.mk
        [("dest/2020-01/2020-01-01_00-00-00.jpg".data, 20), ("s/a.jpg".data, 20)]
        (CheckSumManager.mk []) 0 (Counts.mk 1 0 1 0) [])) ∧
    (browse_sources (fun c => c)
        (fun c => if c = 20 then some "2020:01:01 00:00:00".data else none)
        .cp false "dest".data [SrcFile.mk "s/a.jpg".data ".jpg".data]
        (St.mk
          [("dest/2020-01/2020-01-01_00-00-00.jpg".data, 20), ("s/a.jpg".data, 20)]
          (CheckSumManager.mk []) 0 (Counts.mk 1 0 1 0) []).fs =
      .ok (St.mk
        [("dest/2020-01/2020-01-01_00-00-00.jpg".data, 20), ("s/a.jpg".data, 20)]
        (CheckSumManager.mk
          [("s/a.jpg".data, 20),
           ("dest/2020-01/2020-01-01_00-00-00.jpg".data, 20)])
        0 (Counts.mk 1 0 0 1) [])) ∧
    ((St.mk
        [("dest/2020-01/2020-01-01_00-00-00.jpg".data, 20), ("s/a.jpg".data, 20)]
        (CheckSumManager.mk
          [("s/a.jpg".data, 20),
           ("dest/2020-01/2020-01-01_00-00-00.jpg".data, 20)])
        0 (Counts.mk 1 0 0 1) []).fs =
      (St.mk
        [("dest/2020-01/2020-01-01_00-00-00.jpg".data, 20), ("s/a.jpg".data, 20)]
        (CheckSumManager.mk []) 0 (Counts.mk 1 0 1 0) []).fs ∧
     (St.mk
        [("dest/2020-01/2020-01-01_00-00-00.jpg".data, 20), ("s/a.jpg".data, 20)]
        (CheckSumManager.mk
          [("s/a.jpg".data, 20),
           ("dest/2020-01/2020-01-01_00-00-00.jpg".data, 20)])
        0 (Counts.mk 1 0 0 1) []).counts.total_collected = 0 ∧
     (St.mk
        [("dest/2020-01/2020-01-01_00-00-00.jpg".data, 20), ("s/a.jpg".data, 20)]
        (CheckSumManager.mk
          [("s/a.jpg".data, 20),
           ("dest/2020-01/2020-01-01_00-00-00.jpg".data, 20)])
        0 (Counts.mk 1 0 0 1) []).counts.no_date_collected = 0 ∧
     (St.mk
        [("dest/2020-01/2020-01-01_00-00-00.jpg".data, 20), ("s/a.jpg".data, 20)]
        (CheckSumManager.mk
          [("s/a.jpg".data, 20),
           ("dest/2020-01/2020-01-01_00-00-00.jpg".data, 20)])
        0 (Counts.mk 1 0 0 1) []).counts.duplicate =
       (([SrcFile.mk "s/a.jpg".data ".jpg".data]).filter eligible).length ∧
     (St.mk
        [("dest/2020-01/2020-01-01_00-00-00.jpg".data, 20), ("s/a.jpg".data, 20)]
        (CheckSumManager.mk
          [("s/a.jpg".data, 20),
           ("dest/2020-01/2020-01-01_00-00-00.jpg".data, 20)])
        0 (Counts.mk 1 0 0 1) []).errs = []) := by
  have h1 : browse_sources (fun c => c)
      (fun c => if c = 20 then some "2020:01:01 00:00:00".data else none)
      .cp false "dest".data [SrcFile.mk "s/a.jpg".data ".jpg".data]
      [("s/a.jpg".data, 20)] =
      .ok (St.mk
        [("dest/2020-01/2020-01-01_00-00-00.jpg".data, 20), ("s/a.jpg".data, 20)]
        (CheckSumManager.mk []) 0 (Counts.mk 1 0 1 0) []) := by rfl
  have h2 : browse_sources (fun c => c)
      (fun c => if c = 20 then some "2020:01:01 00:00:00".data else none)
      .cp false "dest".data [SrcFile.mk "s/a.jpg".data ".jpg".data]
      (St.mk
        [("dest/2020-01/2020-01-01_00-00-00.jpg".data, 20), ("s/a.jpg".data, 20)]
        (CheckSumManager.mk []) 0 (Counts.mk 1 0 1 0) []).fs =
      .ok (St.mk
        [("dest/2020-01/2020-01-01_00-00-00.jpg".data, 20), ("s/a.jpg".data, 20)]
        (CheckSumManager.mk
          [("s/a.jpg".data, 20),
           ("dest/2020-01/2020-01-01_00-00-00.jpg".data, 20)])
        0 (Counts.mk 1 0 0 1) []) := by rfl
  refine ⟨h1, h2, claim_C5 (by decide) ?_ ?_ ?_ h1 h2⟩
  · intro f hf
    rcases List.mem_singleton.mp hf with rfl
    exact (by decide :
      startsW ("dest".data ++ ['/']) "s/a.jpg".data = false)
  · intro f hf he
    rcases List.mem_singleton.mp hf with rfl
    exact ⟨20, by rfl⟩
  · intro cq qq hlk hsw hun f hf he c hc
    by_cases hq : "s/a.jpg".data = qq
    · rw [← hq] at hsw
      exact absurd hsw (by decide)
    · simp only [fsLookup, if_neg hq] at hlk
      cases hlk
